import Mathlib

/-!
# Verification of the Go examples `errors`, `option` and `threading`

Shallow embedding of the three programs under
`course/part00/myexamples/go/`.

* A Go `string` / `[]byte` is a sequence of bytes: `GoString := List Nat`,
  each element being a byte value (`< 256`); byte arithmetic is written with
  an explicit `% 256`.
* A Go `(T, error)` result is a pair whose second component is
  `Option GoError` (`none` is `nil`).
* The standard-library functions the programs call (`strings.Index`,
  `strconv.Atoi`, `fmt.Printf` verbs, `os.ReadFile`, `sync.WaitGroup`) are
  modelled after the Go standard library.
-/

namespace GoExamples

/-! ## Strings and formatting -/

/-- A Go string: a finite sequence of bytes. -/
abbrev GoString := List Nat

/-- Every element is a byte value. -/
def WellFormed (s : GoString) : Prop := ∀ c ∈ s, c < 256

instance (s : GoString) : Decidable (WellFormed s) := by
  unfold WellFormed; infer_instance

/-- UTF-8 encoding of one code point, as the Go compiler stores string
literals. -/
def utf8Char (c : Char) : GoString :=
  let n := c.toNat
  if n < 128 then [n]
  else if n < 2048 then [192 + n / 64, 128 + n % 64]
  else if n < 65536 then [224 + n / 4096, 128 + n / 64 % 64, 128 + n % 64]
  else [240 + n / 262144, 128 + n / 4096 % 64, 128 + n / 64 % 64, 128 + n % 64]

/-- The bytes of a string literal of the source. -/
def lit (s : String) : GoString := s.toList.flatMap utf8Char

/-- Decimal digits of a natural number, most significant first, with fuel. -/
def decimalFuel : Nat → Nat → GoString
  | 0, n => [48 + n % 10]
  | f + 1, n => if n < 10 then [48 + n] else decimalFuel f (n / 10) ++ [48 + n % 10]

/-- Decimal rendering of a natural number (`"0"` for zero, no leading zero
otherwise). -/
def decimal (n : Nat) : GoString := decimalFuel n n

/-- The `%d` verb of `fmt.Printf` on an `int`: a minus sign for negative
values followed by the decimal digits of the magnitude. -/
def fmtInt (i : Int) : GoString :=
  if i < 0 then 45 :: decimal i.natAbs else decimal i.toNat

/-! ## `errors.go` -/

/-- The platform: Go's `int` is 32 or 64 bits wide. -/
inductive Arch where
  | bits32
  | bits64
deriving DecidableEq, Repr

/-- The constant `strconv.IntSize`: the size in bits of an `int`. -/
def intSize : Arch → Nat
  | Arch.bits32 => 32
  | Arch.bits64 => 64

/-- The values of a signed integer of `w` bits. -/
def inRange (w : Nat) (n : Int) : Prop := -(2 : Int) ^ (w - 1) ≤ n ∧ n < (2 : Int) ^ (w - 1)

instance (w : Nat) (n : Int) : Decidable (inRange w n) := by
  unfold inRange; infer_instance

/-- The values of Go's `int` on the platform. -/
def inIntRange (a : Arch) (n : Int) : Prop := inRange (intSize a) n

instance (a : Arch) (n : Int) : Decidable (inIntRange a n) := by
  unfold inIntRange; infer_instance

/-- Two's-complement wrap-around of a mathematical integer to `w` bits: the
result of signed machine arithmetic and of integer conversions. -/
def wrapInt (w : Nat) (x : Int) : Int :=
  (x + (2 : Int) ^ (w - 1)) % (2 : Int) ^ w - (2 : Int) ^ (w - 1)

/-- The two errors of `strconv`: `ErrSyntax` and `ErrRange`. -/
inductive NumErr where
  | ErrSyntax
  | ErrRange
deriving DecidableEq, Repr

/-- The Go `error` values the program can meet: an error returned by
`os.ReadFile`, identified by its message, and a `*strconv.NumError` with its
fields `Func`, `Num` and `Err`. -/
inductive GoError where
  | readError (msg : GoString)
  | numError (Func Num : GoString) (Err : NumErr)
deriving DecidableEq, Repr

/-- The message of `ErrSyntax` and `ErrRange`. -/
def NumErr.Error : NumErr → GoString
  | NumErr.ErrSyntax => lit "invalid syntax"
  | NumErr.ErrRange => lit "value out of range"

/-- The method `Error()`.  For a `NumError` it is
`"strconv." + e.Func + ": " + "parsing " + Quote(e.Num) + ": " + e.Err.Error()`;
`strconv.Quote` is taken as a parameter. -/
def GoError.Error (quote : GoString → GoString) : GoError → GoString
  | GoError.readError msg => msg
  | GoError.numError f num err =>
    lit "strconv." ++ f ++ lit ": " ++ lit "parsing " ++ quote num ++ lit ": " ++ err.Error

/-- The function `syntaxError` of `strconv`. -/
def syntaxError (fn str : GoString) : GoError := GoError.numError fn str NumErr.ErrSyntax

/-- The function `rangeError` of `strconv`. -/
def rangeError (fn str : GoString) : GoError := GoError.numError fn str NumErr.ErrRange

/-- The constant `maxUint64`. -/
def maxUint64 : Nat := 2 ^ 64 - 1

/-- The function `lower` of `strconv`: `c | ('x' - 'X')`. -/
def lower (c : Nat) : Nat := c ||| 32

/-- The digit loop of `strconv.ParseUint` for base 10 and bit size
`intSize a`, `n` being the `uint64` accumulated so far.  With base 10 the
underscore case of the library is never taken. -/
def parseUintLoop (a : Arch) (s0 : GoString) : GoString → Nat → Nat × Option GoError
  | [], n => (n, none)
  | c :: cs, n =>
    let cutoff := maxUint64 / 10 + 1
    let maxVal := 2 ^ intSize a - 1
    let digit : Option Nat :=
      if 48 ≤ c ∧ c ≤ 57 then some (c - 48)
      else if 97 ≤ lower c ∧ lower c ≤ 122 then some (lower c - 97 + 10)
      else none
    match digit with
    | none => (0, some (syntaxError (lit "ParseUint") s0))
    | some d =>
      if d ≥ 10 then (0, some (syntaxError (lit "ParseUint") s0))
      else if n ≥ cutoff then (maxVal, some (rangeError (lit "ParseUint") s0))
      else
        let n10 := n * 10 % 2 ^ 64
        let n1 := (n10 + d) % 2 ^ 64
        if n1 < n10 ∨ n1 > maxVal then (maxVal, some (rangeError (lit "ParseUint") s0))
        else parseUintLoop a s0 cs n1

/-- The call `strconv.ParseUint(s, 10, 0)`. -/
def ParseUint (a : Arch) (s : GoString) : Nat × Option GoError :=
  if s = [] then (0, some (syntaxError (lit "ParseUint") s))
  else parseUintLoop a s s 0

/-- The part of `strconv.ParseInt` that follows the call of `ParseUint`: an
error other than `ErrRange` is returned with `Func` and `Num` replaced
(`ParseUint` only returns `NumError`s), then the magnitude `un` is checked
against the cutoff `1 << (bitSize-1)` and converted to `int64`. -/
def parseIntCheck (a : Arch) (s0 : GoString) (neg : Bool) :
    Nat × Option GoError → Int × Option GoError
  | (_, some (GoError.numError _ _ NumErr.ErrSyntax)) =>
    (0, some (GoError.numError (lit "ParseInt") s0 NumErr.ErrSyntax))
  | (_, some (GoError.readError msg)) => (0, some (GoError.readError msg))
  | (un, _) =>
    let cutoff := 2 ^ (intSize a - 1)
    if neg = false ∧ un ≥ cutoff then
      (((cutoff - 1 : Nat) : Int), some (rangeError (lit "ParseInt") s0))
    else if neg = true ∧ un > cutoff then
      (-((cutoff : Nat) : Int), some (rangeError (lit "ParseInt") s0))
    else
      let n := wrapInt 64 (un : Int)
      (if neg then wrapInt 64 (-n) else n, none)

/-- The call `strconv.ParseInt(s, 10, 0)`; the result is an `int64`. -/
def ParseInt (a : Arch) (s : GoString) : Int × Option GoError :=
  match s with
  | [] => (0, some (syntaxError (lit "ParseInt") s))
  | c :: cs =>
    let s0 := c :: cs
    let neg := decide (c = 45)
    let s1 := if c = 43 then cs else if c = 45 then cs else c :: cs
    parseIntCheck a s0 neg (ParseUint a s1)

/-- The digit loop of the fast path of `strconv.Atoi`: `ch -= '0'` is byte
arithmetic and `n = n*10 + int(ch)` is `int` arithmetic; `none` is the
syntax-error return. -/
def atoiFastLoop (a : Arch) : GoString → Int → Option Int
  | [], n => some n
  | ch :: rest, n =>
    let ch1 := (ch + 256 - 48) % 256
    if ch1 > 9 then none
    else atoiFastLoop a rest (wrapInt (intSize a) (n * 10 + (ch1 : Int)))

/-- The fast path of `strconv.Atoi`, for an input that is short enough not to
overflow an `int`: an optional sign, then the digit loop. -/
def atoiFast (a : Arch) (s : GoString) : Int × Option GoError :=
  match s with
  | [] => (0, some (syntaxError (lit "Atoi") s))
  | c :: cs =>
    let s0 := c :: cs
    let s1 := if c = 45 ∨ c = 43 then cs else c :: cs
    if (c = 45 ∨ c = 43) ∧ s1.length < 1 then (0, some (syntaxError (lit "Atoi") s0))
    else
      match atoiFastLoop a s1 0 with
      | none => (0, some (syntaxError (lit "Atoi") s0))
      | some n => (if c = 45 then wrapInt (intSize a) (-n) else n, none)

/-- The slow path of `strconv.Atoi`: `ParseInt(s, 10, 0)`, the `Func` of a
`NumError` being renamed to `Atoi`, and the `int64` converted to `int`. -/
def atoiSlow (a : Arch) (s : GoString) : Int × Option GoError :=
  match ParseInt a s with
  | (i64, some (GoError.numError _ num err)) =>
    (wrapInt (intSize a) i64, some (GoError.numError (lit "Atoi") num err))
  | (i64, err) => (wrapInt (intSize a) i64, err)

/-- Go `strconv.Atoi(s)`: the fast path when `0 < len(s) < 10` on a 32-bit
platform or `0 < len(s) < 19` on a 64-bit one, the slow path otherwise. -/
def Atoi (a : Arch) (s : GoString) : Int × Option GoError :=
  let sLen := s.length
  if (intSize a = 32 ∧ 0 < sLen ∧ sLen < 10) ∨ (intSize a = 64 ∧ 0 < sLen ∧ sLen < 19) then
    atoiFast a s
  else atoiSlow a s

/-- What the program gets from its environment: the platform, the command
line `os.Args`, the function `os.ReadFile` (the bytes read and the error), and
the library function `strconv.Quote` used in error messages. -/
structure Env where
  arch : Arch
  args : List GoString
  readFile : GoString → GoString × Option GoError
  quote : GoString → GoString

/-- The function `intFromFile` of `errors.go`. -/
def intFromFile (env : Env) (filename : GoString) : Int × Option GoError :=
  match env.readFile filename with
  | (_, some err) => (0, some err)
  | (b, none) =>
    match Atoi env.arch b with
    | (_, some err) => (0, some err)
    | (i, none) => (i, none)

/-- What a terminated process has written and its exit code. -/
structure Exit where
  stdout : GoString
  stderr : GoString
  code : Nat
deriving DecidableEq, Repr

/-- The file name `main` of `errors.go` reads: `os.Args[1]` if there is one,
`yolo` otherwise. -/
def fileName (env : Env) : GoString :=
  match env.args with
  | _ :: arg :: _ => arg
  | _ => lit "yolo"

/-- The `main` of `errors.go`: `fmt.Printf` writes to standard output,
`os.Exit(1)` ends the process with code 1, and returning from `main` ends it
with code 0. -/
def errorsMain (env : Env) : Exit :=
  match intFromFile env (fileName env) with
  | (_, some err) =>
    { stdout := lit "failed to read int: " ++ err.Error env.quote ++ lit "\n",
      stderr := [], code := 1 }
  | (i, none) =>
    { stdout := lit "int is " ++ fmtInt i ++ lit "\n", stderr := [], code := 0 }

/-- Specification: a decimal digit. -/
def isDigit (c : Nat) : Bool := decide (48 ≤ c) && decide (c ≤ 57)

/-- Specification: the number a sequence of decimal digits denotes. -/
def digitsValue (ds : GoString) : Nat := ds.foldl (fun n c => n * 10 + (c - 48)) 0

/-- Specification: the value of a non-empty sequence of decimal digits. -/
def unsignedValue (ds : GoString) : Option Nat :=
  if ds ≠ [] ∧ ds.all isDigit = true then some (digitsValue ds) else none

/-- Specification: the integer a base-10 text denotes: an optional sign `+` or
`-` followed by one or more decimal digits; `none` for any other text. -/
def decimalValue : GoString → Option Int
  | [] => none
  | c :: cs =>
    if c = 43 then (unsignedValue cs).map fun (v : Nat) => (v : Int)
    else if c = 45 then (unsignedValue cs).map fun (v : Nat) => -(v : Int)
    else (unsignedValue (c :: cs)).map fun (v : Nat) => (v : Int)

/-- Specification: the text is a valid base-10 integer in the `int` range. -/
def ValidInt (a : Arch) (s : GoString) : Prop :=
  ∃ n, decimalValue s = some n ∧ inIntRange a n

/-- Specification: white space, as removed by trimming. -/
def isSpace (c : Nat) : Bool :=
  c == 9 || c == 10 || c == 11 || c == 12 || c == 13 || c == 32

/-- Specification: the text without its leading and trailing white space. -/
def trimSpace (s : GoString) : GoString :=
  ((s.dropWhile isSpace).reverse.dropWhile isSpace).reverse

/-- An environment in which every file holds the given bytes. -/
def envWithContent (a : Arch) (content : GoString) : Env :=
  { arch := a, args := [], readFile := fun _ => (content, none), quote := id }

/-- An environment in which no file can be read. -/
def envNoFile (a : Arch) : Env :=
  { arch := a, args := [],
    readFile := fun name =>
      ([], some (GoError.readError (lit "open " ++ name ++ lit ": no such file or directory"))),
    quote := id }

/-! ## `option.go` -/

/-- The left-to-right search of `strings.Index`: `i` is the byte offset of the
suffix being examined; the first offset at which `substr` is a prefix of the
remaining text is returned, `-1` when the text is exhausted. -/
def indexScan (substr : GoString) : GoString → Nat → Int
  | [], _ => -1
  | c :: cs, i =>
    if (c :: cs).take substr.length = substr then (i : Int)
    else indexScan substr cs (i + 1)

/-- Go `strings.Index(s, substr)`: the index of the first instance of
`substr` in `s`, or `-1` if `substr` is not present.  The case split on
`len(substr)` is the one of the library; the architecture-specific search
routines are represented by the plain scan they implement. -/
def Index (s substr : GoString) : Int :=
  let n := substr.length
  if n = 0 then 0
  else if n = s.length then (if substr = s then 0 else -1)
  else if n > s.length then -1
  else indexScan substr s 0

/-- Go slice expression `s[lo:hi]` on a string; `none` is the run-time panic
"slice bounds out of range". -/
def slice (s : GoString) (lo hi : Int) : Option GoString :=
  if 0 ≤ lo ∧ lo ≤ hi ∧ hi ≤ (s.length : Int) then
    some ((s.drop lo.toNat).take (hi.toNat - lo.toNat))
  else none

/-- Result of running a program that only prints and may panic. -/
structure Run where
  stdout : GoString
  panicked : Option GoString
deriving DecidableEq, Repr

/-- The line printed by
`fmt.Printf("substring %s was found in %s at index %d\n", ...)`. -/
def foundLine (subString fullString : GoString) (index : Int) : GoString :=
  lit "substring " ++ subString ++ lit " was found in " ++ fullString ++
    lit " at index " ++ fmtInt index ++ lit "\n"

/-- The `for _, subString := range subStrings` loop of `option.go`, with the
standard output accumulated so far. -/
def locateLoop (fullString : GoString) : List GoString → GoString → Run
  | [], out => { stdout := out, panicked := none }
  | subString :: rest, out =>
    let index := Index fullString subString
    if index = -1 then locateLoop fullString rest out
    else
      let out1 := out ++ foundLine subString fullString index
      match slice fullString index (index + (subString.length : Int)) with
      | none => { stdout := out1, panicked := some (lit "slice bounds out of range") }
      | some recreatedSubstring =>
        if subString ≠ recreatedSubstring then
          { stdout := out1,
            panicked := some (lit "recreated substring did not match original substring") }
        else locateLoop fullString rest out1

/-- The body of `main` of `option.go` for a given reference string and
candidate list. -/
def locate (fullString : GoString) (subStrings : List GoString) : Run :=
  locateLoop fullString subStrings []

/-- The `main` of `option.go`. -/
def optionMain : Run :=
  locate (lit "hello world") [lit "world", lit "abacus"]

/-- Specification: `substr` occurs in `s` at byte offset `i`. -/
def OccursAt (s substr : GoString) (i : Nat) : Prop :=
  i + substr.length ≤ s.length ∧ (s.drop i).take substr.length = substr

instance (s substr : GoString) (i : Nat) : Decidable (OccursAt s substr i) := by
  unfold OccursAt; infer_instance

/-- Specification: the least byte offset at which `substr` occurs in `s`, if
there is one. -/
def leastOccurrence (s substr : GoString) : Option Nat :=
  if h : ∃ i, i < s.length + 1 ∧ OccursAt s substr i then some (Nat.find h) else none

/-- Specification: the decimal text of a natural number, from its base-10
digits (`Nat.digits`, least significant first): `0` for zero, otherwise the
digits most significant first, each as the byte `'0' + d`. -/
def decimalText (n : Nat) : GoString :=
  if n = 0 then [48] else (Nat.digits 10 n).reverse.map fun d => 48 + d

/-- Specification: the line `substring <S> was found in <FULL> at index <I>`
followed by a newline, byte by byte: the ASCII codes of `substring `, then
`S`, of ` was found in `, then `FULL`, of ` at index `, then the decimal text
of `I`, and the newline. -/
def expectedLine (S FULL : GoString) (I : Nat) : GoString :=
  [115, 117, 98, 115, 116, 114, 105, 110, 103, 32] ++ S ++
    [32, 119, 97, 115, 32, 102, 111, 117, 110, 100, 32, 105, 110, 32] ++ FULL ++
    [32, 97, 116, 32, 105, 110, 100, 101, 120, 32] ++ decimalText I ++ [10]

/-- Specification of the output of the substring locator: in candidate order,
one line per candidate that occurs, carrying the least offset; nothing for a
candidate that does not occur. -/
def expectedOutput (fullString : GoString) (subStrings : List GoString) : GoString :=
  (subStrings.map fun s =>
    match leastOccurrence fullString s with
    | some i => expectedLine s fullString i
    | none => []).flatten

/-! ## `threading.go` -/

/-- The constant `THREADS` of `threading.go`. -/
def THREADS : Nat := 1000

/-- The constant `REPEATS` of `threading.go`. -/
def REPEATS : Nat := 1000

/-- The shared `map[int]int`, as a list of entries with distinct keys.  Keys
and values are values of the loop counter `repeat`, which stays within
`0..REPEATS`. -/
abbrev GoMap := List (Nat × Nat)

/-- The map assignment `m[k] = v`: the entry of `k` is overwritten if there is
one, a new entry is added otherwise. -/
def mapStore : GoMap → Nat → Nat → GoMap
  | [], k, v => [(k, v)]
  | (k1, v1) :: m, k, v => if k1 = k then (k, v) :: m else (k1, v1) :: mapStore m k v

/-- The map read `m[k]` with presence flag. -/
def mapLookup : GoMap → Nat → Option Nat
  | [], _ => none
  | (k1, v1) :: m, k => if k1 = k then some v1 else mapLookup m k

/-- A goroutine started by the `go` statement: it is either in its loop with
the current value of `repeat` (when `repeat` has reached the bound, only the
deferred `wg.Done()` remains), or it has returned. -/
inductive Worker where
  | running (rep : Nat)
  | finished
deriving DecidableEq, Repr

/-- Control point of `main`: at the head of the launch loop (about to test
`i < THREADS` and call `wg.Add(1)`), between `wg.Add(1)` and the `go`
statement, blocked in `wg.Wait()`, about to print, returned. -/
inductive MainPc where
  | loop
  | launch
  | wait
  | print
  | returned
deriving DecidableEq, Repr

/-- State of a run of `threading.go`: the shared map `x`, the counter of the
wait group, the loop variable `i` of `main`, its control point, the goroutines
launched so far in launch order, and what has been printed: the map and the
expected value. -/
structure State where
  x : GoMap
  wg : Int
  i : Nat
  pc : MainPc
  workers : List Worker
  out : Option (GoMap × Nat)
deriving DecidableEq, Repr

/-- The threads of the program. -/
inductive Thread where
  | main
  | worker (j : Nat)
deriving DecidableEq, Repr

/-- State at the start of `main`. -/
def init : State :=
  { x := [], wg := 0, i := 0, pc := MainPc.loop, workers := [], out := none }

/-- One atomic step of the scheduled thread, for `THREADS = T` and
`REPEATS = R`; `none` when the thread is blocked or has terminated.

* `main`: `wg.Add(1)` when `i < T`, else on to `wg.Wait()`; the `go` statement
  (with `i++`); `wg.Wait()`, which returns only when the counter is zero; the
  `fmt.Printf` of the map with the expected value `T * R`.
* worker `j`: the assignment `x[repeat] = repeat` followed by `repeat++` while
  `repeat < R`; then the deferred `wg.Done()`, which decrements the counter.

The counter is an integer: that it never becomes negative (where `wg.Done()`
would panic) is proved, not assumed.  When `main` returns the process ends;
by then every goroutine has returned, so no step is cut short. -/
def step (T R : Nat) (s : State) : Thread → Option State
  | Thread.main =>
    match s.pc with
    | MainPc.loop =>
      if s.i < T then some { s with wg := s.wg + 1, pc := MainPc.launch }
      else some { s with pc := MainPc.wait }
    | MainPc.launch =>
      some { s with workers := s.workers ++ [Worker.running 0], i := s.i + 1,
                    pc := MainPc.loop }
    | MainPc.wait => if s.wg = 0 then some { s with pc := MainPc.print } else none
    | MainPc.print => some { s with out := some (s.x, T * R), pc := MainPc.returned }
    | MainPc.returned => none
  | Thread.worker j =>
    match s.workers[j]? with
    | some (Worker.running r) =>
      if r < R then
        some { s with x := mapStore s.x r r, workers := s.workers.set j (Worker.running (r + 1)) }
      else
        some { s with wg := s.wg - 1, workers := s.workers.set j Worker.finished }
    | _ => none

/-- Execution of a schedule (an interleaving): the listed threads take one
step each, in order; `none` if a scheduled thread cannot step. -/
def exec (T R : Nat) : List Thread → State → Option State
  | [], s => some s
  | t :: ts, s =>
    match step T R s t with
    | some s1 => exec T R ts s1
    | none => none

/-- The key the next step of worker `j` writes, if that step is a map write. -/
def nextWrite (R : Nat) (s : State) (j : Nat) : Option Nat :=
  match s.workers[j]? with
  | some (Worker.running r) => if r < R then some r else none
  | _ => none

/-- Number of launched goroutines that have not yet returned. -/
def unfinished : List Worker → Nat
  | [] => 0
  | Worker.finished :: ws => unfinished ws
  | Worker.running _ :: ws => unfinished ws + 1

/-- The map holding exactly the keys below `n`, each with itself as value. -/
def idMap (n : Nat) : GoMap := (List.range n).map fun k => (k, k)

/-- Number of writes a goroutine has performed. -/
def progress (R : Nat) : Worker → Nat
  | Worker.running r => r
  | Worker.finished => R

/-- A reachable state in which two goroutines have been launched and one has
written once, with the constants of the source. -/
def sampleState : State :=
  { x := [(0, 0)], wg := 2, i := 2, pc := MainPc.loop,
    workers := [Worker.running 1, Worker.running 0], out := none }

/-- The state after a complete interleaved run of two goroutines of two writes
each, just before `main` reaches `wg.Wait()`. -/
def sampleFinal : State :=
  { x := [(0, 0), (1, 1)], wg := 0, i := 2, pc := MainPc.loop,
    workers := [Worker.finished, Worker.finished], out := none }

/-- The state after a complete run of two goroutines of one write each,
`main` having printed and returned. -/
def sampleExit : State :=
  { x := [(0, 0)], wg := 0, i := 2, pc := MainPc.returned,
    workers := [Worker.finished, Worker.finished], out := some ([(0, 0)], 2) }

/-- The state right after the first `wg.Add(1)`. -/
def sampleAdded : State :=
  { x := [], wg := 1, i := 0, pc := MainPc.launch, workers := [], out := none }

/-! ## Definitions used in the proofs -/

/-- The value of a digit sequence continued from an accumulated value. -/
def digitsFrom (n : Nat) (ds : GoString) : Nat := ds.foldl (fun n c => n * 10 + (c - 48)) n

/-- The value `ParseInt` and `Atoi` return with a range error: the largest
`int` for a text that denotes a positive number, the smallest for a negative
one. -/
def clampInt (a : Arch) (n : Int) : Int :=
  if n < 0 then -(2 : Int) ^ (intSize a - 1) else (2 : Int) ^ (intSize a - 1) - 1

/-- The length below which `Atoi` takes its fast path. -/
def fastLimit : Arch → Nat
  | Arch.bits32 => 10
  | Arch.bits64 => 19

/-- The invariant of the runs of `threading.go`. -/
structure Inv (T R : Nat) (s : State) : Prop where
  map_id : s.x = idMap s.x.length
  prog_le : ∀ w ∈ s.workers, progress R w ≤ s.x.length
  len_le : s.x.length ≤ R
  wg_eq : s.wg = (unfinished s.workers : Int) + (if s.pc = MainPc.launch then 1 else 0)
  launched : s.workers.length = s.i
  i_le : s.i ≤ T
  i_lt : s.pc = MainPc.launch → s.i < T
  i_eq : s.pc = MainPc.wait ∨ s.pc = MainPc.print ∨ s.pc = MainPc.returned → s.i = T
  all_done : s.pc = MainPc.print ∨ s.pc = MainPc.returned → ∀ w ∈ s.workers, w = Worker.finished
  out_eq : ∀ m e, s.out = some (m, e) → s.pc = MainPc.returned ∧ m = s.x ∧ e = T * R

/-- Number of steps a list of goroutines still has to take: for a running one
its remaining writes and the `wg.Done()`. -/
def remaining (R : Nat) : List Worker → Nat
  | [] => 0
  | Worker.running r :: ws => (R - r + 1) + remaining R ws
  | Worker.finished :: ws => remaining R ws

/-- A bound on the number of steps left in a run: those of `main` up to its
return, those of the goroutines still to be launched, and those of the
goroutines launched. -/
def stepsLeft (T R : Nat) (s : State) : Nat :=
  (match s.pc with
    | MainPc.loop => 3
    | MainPc.launch => 2
    | MainPc.wait => 2
    | MainPc.print => 1
    | MainPc.returned => 0) + (T - s.i) * (R + 3) + remaining R s.workers

/-! ## Proofs for `errors.go` -/

theorem digitsValue_eq (ds : GoString) : digitsValue ds = digitsFrom 0 ds := rfl

theorem digitsFrom_cons (n c : Nat) (cs : GoString) :
    digitsFrom n (c :: cs) = digitsFrom (n * 10 + (c - 48)) cs := rfl

theorem digitsFrom_append (n : Nat) (xs ys : GoString) :
    digitsFrom n (xs ++ ys) = digitsFrom (digitsFrom n xs) ys := by
  simp [digitsFrom, List.foldl_append]

theorem isDigit_iff (c : Nat) : isDigit c = true ↔ 48 ≤ c ∧ c ≤ 57 := by
  simp [isDigit]

theorem digitsFrom_ge (ds : GoString) : ∀ n, n ≤ digitsFrom n ds := by
  induction ds with
  | nil => intro n; exact Nat.le_refl _
  | cons c cs ih =>
    intro n
    rw [digitsFrom_cons]
    have := ih (n * 10 + (c - 48))
    omega

theorem digitsFrom_lt (ds : GoString) (hd : ∀ c ∈ ds, isDigit c = true) :
    ∀ n, digitsFrom n ds < (n + 1) * 10 ^ ds.length := by
  induction ds with
  | nil => intro n; simp [digitsFrom]
  | cons c cs ih =>
    intro n
    rw [digitsFrom_cons]
    have hc := (isDigit_iff c).mp (hd c (List.mem_cons_self _ _))
    have h1 := ih (fun x hx => hd x (List.mem_cons_of_mem _ hx)) (n * 10 + (c - 48))
    have h2 : (n * 10 + (c - 48) + 1) * 10 ^ cs.length ≤ ((n + 1) * 10) * 10 ^ cs.length :=
      Nat.mul_le_mul_right _ (by omega)
    have h3 : (n + 1) * 10 ^ (c :: cs).length = ((n + 1) * 10) * 10 ^ cs.length := by
      simp [pow_succ]; ring
    omega

theorem parseUintLoop_digits (a : Arch) (s0 : GoString) :
    ∀ (ds : GoString) (n : Nat), (∀ c ∈ ds, isDigit c = true) → n ≤ 2 ^ intSize a - 1 →
      parseUintLoop a s0 ds n =
        if digitsFrom n ds ≤ 2 ^ intSize a - 1 then (digitsFrom n ds, none)
        else (2 ^ intSize a - 1, some (rangeError (lit "ParseUint") s0)) := by
  intro ds
  induction ds with
  | nil =>
    intro n _ hn
    simp [parseUintLoop, digitsFrom, hn]
  | cons c cs ih =>
    intro n hd hn
    have hc := (isDigit_iff c).mp (hd c (List.mem_cons_self _ _))
    have hcs : ∀ x ∈ cs, isDigit x = true := fun x hx => hd x (List.mem_cons_of_mem _ hx)
    have hge := digitsFrom_ge cs (n * 10 + (c - 48))
    rw [digitsFrom_cons]
    simp only [parseUintLoop, if_pos hc]
    have hd10 : ¬ (c - 48 ≥ 10) := by omega
    rw [if_neg hd10]
    have hmax : 2 ^ intSize a - 1 ≤ 18446744073709551615 := by
      cases a <;> simp [intSize]
    have hcut : maxUint64 / 10 + 1 = 1844674407370955162 := by
      simp [maxUint64]
    by_cases hn1 : n ≥ maxUint64 / 10 + 1
    · rw [if_pos hn1]
      have : ¬ digitsFrom (n * 10 + (c - 48)) cs ≤ 2 ^ intSize a - 1 := by omega
      rw [if_neg this]
    · rw [if_neg hn1]
      have h10 : n * 10 % 2 ^ 64 = n * 10 := Nat.mod_eq_of_lt (by omega)
      rw [h10]
      by_cases hov : n * 10 + (c - 48) < 2 ^ 64
      · have h11 : (n * 10 + (c - 48)) % 2 ^ 64 = n * 10 + (c - 48) := Nat.mod_eq_of_lt hov
        rw [h11]
        by_cases hm : n * 10 + (c - 48) > 2 ^ intSize a - 1
        · rw [if_pos (Or.inr hm)]
          have : ¬ digitsFrom (n * 10 + (c - 48)) cs ≤ 2 ^ intSize a - 1 := by omega
          rw [if_neg this]
        · have hno : ¬ (n * 10 + (c - 48) < n * 10 ∨ n * 10 + (c - 48) > 2 ^ intSize a - 1) := by
            omega
          rw [if_neg hno]
          exact ih (n * 10 + (c - 48)) hcs (by omega)
      · have h11 : (n * 10 + (c - 48)) % 2 ^ 64 < n * 10 := by
          have : (2 : Nat) ^ 64 = 18446744073709551616 := by norm_num
          omega
        rw [if_pos (Or.inl h11)]
        have : ¬ digitsFrom (n * 10 + (c - 48)) cs ≤ 2 ^ intSize a - 1 := by
          have : (2 : Nat) ^ 64 = 18446744073709551616 := by norm_num
          omega
        rw [if_neg this]

theorem parseUintLoop_nondigit (a : Arch) (s0 : GoString) :
    ∀ (ds : GoString) (n : Nat), (∃ c ∈ ds, isDigit c = false) →
      parseUintLoop a s0 ds n = (0, some (syntaxError (lit "ParseUint") s0)) ∨
      parseUintLoop a s0 ds n = (2 ^ intSize a - 1, some (rangeError (lit "ParseUint") s0)) := by
  intro ds
  induction ds with
  | nil => intro n h; obtain ⟨c, hc, _⟩ := h; simp at hc
  | cons c cs ih =>
    intro n h
    by_cases hc : 48 ≤ c ∧ c ≤ 57
    · have hcs : ∃ x ∈ cs, isDigit x = false := by
        obtain ⟨x, hx, hxd⟩ := h
        rcases List.mem_cons.mp hx with h1 | h1
        · subst h1
          have := (isDigit_iff x).mpr hc
          simp [this] at hxd
        · exact ⟨x, h1, hxd⟩
      simp only [parseUintLoop, if_pos hc]
      have hd10 : ¬ (c - 48 ≥ 10) := by omega
      rw [if_neg hd10]
      split
      · exact Or.inr rfl
      · split
        · exact Or.inr rfl
        · exact ih _ hcs
    · simp only [parseUintLoop, if_neg hc]
      by_cases hl : 97 ≤ lower c ∧ lower c ≤ 122
      · rw [if_pos hl]
        have : lower c - 97 + 10 ≥ 10 := by omega
        left
        simp only [this, if_true]
      · rw [if_neg hl]
        exact Or.inl rfl

theorem exists_nondigit_of_unsignedValue_none (ds : GoString) (hne : ds ≠ [])
    (h : unsignedValue ds = none) : ∃ c ∈ ds, isDigit c = false := by
  unfold unsignedValue at h
  by_cases hall : ds.all isDigit = true
  · rw [if_pos ⟨hne, hall⟩] at h
    cases h
  · simp only [List.all_eq_true, not_forall] at hall
    obtain ⟨c, hc, hcd⟩ := hall
    exact ⟨c, hc, by simpa using hcd⟩

theorem unsignedValue_some (ds : GoString) (v : Nat) (h : unsignedValue ds = some v) :
    ds ≠ [] ∧ (∀ c ∈ ds, isDigit c = true) ∧ v = digitsFrom 0 ds := by
  unfold unsignedValue at h
  split at h
  · rename_i hc
    simp only [Option.some.injEq] at h
    exact ⟨hc.1, by simpa using hc.2, h.symm⟩
  · cases h

theorem ParseUint_some (a : Arch) (ds : GoString) (v : Nat) (h : unsignedValue ds = some v) :
    ParseUint a ds =
      if v ≤ 2 ^ intSize a - 1 then (v, none)
      else (2 ^ intSize a - 1, some (rangeError (lit "ParseUint") ds)) := by
  obtain ⟨hne, hd, hv⟩ := unsignedValue_some ds v h
  unfold ParseUint
  rw [if_neg hne, hv]
  exact parseUintLoop_digits a ds ds 0 hd (Nat.zero_le _)

theorem ParseUint_none (a : Arch) (ds : GoString) (h : unsignedValue ds = none) :
    ParseUint a ds = (0, some (syntaxError (lit "ParseUint") ds)) ∨
    ParseUint a ds = (2 ^ intSize a - 1, some (rangeError (lit "ParseUint") ds)) := by
  unfold ParseUint
  by_cases hne : ds = []
  · rw [if_pos hne]
    exact Or.inl rfl
  · rw [if_neg hne]
    exact parseUintLoop_nondigit a ds ds 0 (exists_nondigit_of_unsignedValue_none ds hne h)

theorem wrap64_small (v : Nat) (h : v < 9223372036854775808) : wrapInt 64 (v : Int) = (v : Int) := by
  unfold wrapInt
  norm_num
  omega

theorem wrap64_neg (v : Nat) (h : v ≤ 9223372036854775808) :
    wrapInt 64 (-(v : Int)) = -(v : Int) := by
  unfold wrapInt
  norm_num
  omega

theorem wrap64_min : wrapInt 64 (9223372036854775808 : Int) = -9223372036854775808 := by
  unfold wrapInt
  norm_num

theorem parseIntCheck_ok (a : Arch) (s0 : GoString) (neg : Bool) (v : Nat)
    (hv : v ≤ 2 ^ intSize a - 1) :
    parseIntCheck a s0 neg (v, none) =
      if inIntRange a (if neg = true then -(v : Int) else (v : Int)) then
        (if neg = true then -(v : Int) else (v : Int), none)
      else (clampInt a (if neg = true then -(v : Int) else (v : Int)),
        some (rangeError (lit "ParseInt") s0)) := by
  have hP : ∃ P : Nat, 2 ^ (intSize a - 1) = P ∧ 0 < P ∧ P ≤ 9223372036854775808 ∧
      (2 : Int) ^ (intSize a - 1) = (P : Int) := by
    cases a
    · exact ⟨2147483648, by norm_num [intSize], by norm_num, by norm_num, by norm_num [intSize]⟩
    · exact ⟨9223372036854775808, by norm_num [intSize], by norm_num, by norm_num,
        by norm_num [intSize]⟩
  obtain ⟨P, hP1, hP0, hP2, hP3⟩ := hP
  simp only [parseIntCheck, inIntRange, inRange, clampInt, hP1, hP3]
  cases neg
  · simp only [Bool.false_eq_true, if_false, true_and, false_and]
    by_cases hge : v ≥ P
    · have hnr : ¬ (-(P : Int) ≤ (v : Int) ∧ (v : Int) < (P : Int)) := by omega
      have hnn : ¬ ((v : Int) < 0) := by omega
      rw [if_pos hge, if_neg hnr, if_neg hnn]
      congr 1
      omega
    · have hr : (-(P : Int) ≤ (v : Int) ∧ (v : Int) < (P : Int)) := by omega
      rw [if_neg hge, if_pos hr, wrap64_small v (by omega)]
  · simp only [reduceCtorEq, if_true, true_and, false_and, if_false]
    by_cases hgt : v > P
    · have hnr : ¬ (-(P : Int) ≤ -(v : Int) ∧ -(v : Int) < (P : Int)) := by omega
      have hneg : (-(v : Int) < 0) := by omega
      rw [if_pos hgt, if_neg hnr, if_pos hneg]
    · have hr : (-(P : Int) ≤ -(v : Int) ∧ -(v : Int) < (P : Int)) := by omega
      rw [if_neg hgt, if_pos hr]
      by_cases hs : v < 9223372036854775808
      · rw [wrap64_small v hs, wrap64_neg v (by omega)]
      · have hveq : v = 9223372036854775808 := by omega
        subst hveq
        have h1 : wrapInt 64 ((9223372036854775808 : Nat) : Int) = -9223372036854775808 := by
          exact_mod_cast wrap64_min
        rw [h1]
        have h2 : wrapInt 64 (- -9223372036854775808) = -9223372036854775808 := by
          simpa using wrap64_min
        rw [h2]
        norm_num

theorem parseIntCheck_range (a : Arch) (s0 s1 : GoString) (neg : Bool) :
    parseIntCheck a s0 neg (2 ^ intSize a - 1, some (rangeError (lit "ParseUint") s1)) =
      (if neg = true then -(2 : Int) ^ (intSize a - 1) else (2 : Int) ^ (intSize a - 1) - 1,
        some (rangeError (lit "ParseInt") s0)) := by
  cases a <;> cases neg <;>
    simp only [parseIntCheck, rangeError, intSize, reduceCtorEq, if_true, if_false, true_and,
      false_and] <;>
    norm_num

theorem parseIntCheck_syntaxError (a : Arch) (s0 s1 : GoString) (neg : Bool) :
    parseIntCheck a s0 neg (0, some (syntaxError (lit "ParseUint") s1)) =
      (0, some (syntaxError (lit "ParseInt") s0)) := by
  simp only [parseIntCheck, syntaxError]

theorem parseInt_core (a : Arch) (s0 s1 : GoString) (neg : Bool) (v : Nat)
    (h : unsignedValue s1 = some v) :
    parseIntCheck a s0 neg (ParseUint a s1) =
      if inIntRange a (if neg = true then -(v : Int) else (v : Int)) then
        (if neg = true then -(v : Int) else (v : Int), none)
      else (clampInt a (if neg = true then -(v : Int) else (v : Int)),
        some (rangeError (lit "ParseInt") s0)) := by
  rw [ParseUint_some a s1 v h]
  by_cases hv : v ≤ 2 ^ intSize a - 1
  · rw [if_pos hv]
    exact parseIntCheck_ok a s0 neg v hv
  · rw [if_neg hv, parseIntCheck_range]
    have hP : ∃ P : Nat, 2 ^ intSize a - 1 = 2 * P - 1 ∧ 0 < P ∧
        (2 : Int) ^ (intSize a - 1) = (P : Int) := by
      cases a
      · exact ⟨2147483648, by norm_num [intSize], by norm_num, by norm_num [intSize]⟩
      · exact ⟨9223372036854775808, by norm_num [intSize], by norm_num, by norm_num [intSize]⟩
    obtain ⟨P, hP1, hP0, hP3⟩ := hP
    rw [hP1] at hv
    simp only [inIntRange, inRange, clampInt, hP3]
    cases neg
    · simp only [Bool.false_eq_true, if_false]
      have hnr : ¬ (-(P : Int) ≤ (v : Int) ∧ (v : Int) < (P : Int)) := by omega
      have hnn : ¬ ((v : Int) < 0) := by omega
      rw [if_neg hnr, if_neg hnn]
    · simp only [if_true]
      have hnr : ¬ (-(P : Int) ≤ -(v : Int) ∧ -(v : Int) < (P : Int)) := by omega
      have hneg : (-(v : Int) < 0) := by omega
      rw [if_neg hnr, if_pos hneg]

theorem parseInt_core_none (a : Arch) (s0 s1 : GoString) (neg : Bool)
    (h : unsignedValue s1 = none) :
    ∃ v k, parseIntCheck a s0 neg (ParseUint a s1) =
      (v, some (GoError.numError (lit "ParseInt") s0 k)) := by
  rcases ParseUint_none a s1 h with h1 | h1
  · rw [h1, parseIntCheck_syntaxError]
    exact ⟨_, _, rfl⟩
  · rw [h1, parseIntCheck_range]
    exact ⟨_, _, rfl⟩

/-- The sign stripping of `decimalValue`, in the shape of the code. -/
theorem decimalValue_cons (c : Nat) (cs : GoString) :
    decimalValue (c :: cs) =
      (unsignedValue (if c = 43 then cs else if c = 45 then cs else c :: cs)).map
        fun (v : Nat) => if c = 45 then -(v : Int) else (v : Int) := by
  unfold decimalValue
  by_cases h43 : c = 43
  · subst h43
    simp
  · by_cases h45 : c = 45
    · subst h45
      simp
    · simp [h43, h45]

theorem ParseInt_some (a : Arch) (s : GoString) (n : Int) (h : decimalValue s = some n) :
    ParseInt a s =
      if inIntRange a n then (n, none)
      else (clampInt a n, some (rangeError (lit "ParseInt") s)) := by
  cases s with
  | nil => simp [decimalValue] at h
  | cons c cs =>
    rw [decimalValue_cons] at h
    cases hu : unsignedValue (if c = 43 then cs else if c = 45 then cs else c :: cs) with
    | none => rw [hu] at h; simp at h
    | some v =>
      rw [hu] at h
      simp only [Option.map_some', Option.some.injEq] at h
      have := parseInt_core a (c :: cs) _ (decide (c = 45)) v hu
      simp only [decide_eq_true_eq] at this
      rw [h] at this
      simpa only [ParseInt] using this

theorem ParseInt_none (a : Arch) (s : GoString) (h : decimalValue s = none) :
    ∃ v k, ParseInt a s = (v, some (GoError.numError (lit "ParseInt") s k)) := by
  cases s with
  | nil => exact ⟨_, _, rfl⟩
  | cons c cs =>
    rw [decimalValue_cons] at h
    cases hu : unsignedValue (if c = 43 then cs else if c = 45 then cs else c :: cs) with
    | some v => rw [hu] at h; simp at h
    | none =>
      have := parseInt_core_none a (c :: cs) _ (decide (c = 45)) hu
      simpa only [ParseInt] using this

theorem wrapInt_of_inIntRange (a : Arch) (x : Int) (h : inIntRange a x) :
    wrapInt (intSize a) x = x := by
  cases a <;> simp only [inIntRange, inRange, intSize] at h <;> unfold wrapInt <;>
    simp only [intSize] <;> norm_num at h ⊢ <;> omega

theorem clampInt_inIntRange (a : Arch) (n : Int) : inIntRange a (clampInt a n) := by
  cases a <;> simp only [inIntRange, inRange, intSize, clampInt] <;> split <;> norm_num

theorem atoiSlow_some (a : Arch) (s : GoString) (n : Int) (h : decimalValue s = some n) :
    atoiSlow a s =
      if inIntRange a n then (n, none)
      else (clampInt a n, some (rangeError (lit "Atoi") s)) := by
  unfold atoiSlow
  rw [ParseInt_some a s n h]
  by_cases hr : inIntRange a n
  · simp only [if_pos hr, wrapInt_of_inIntRange a n hr]
  · simp only [if_neg hr, rangeError, wrapInt_of_inIntRange a _ (clampInt_inIntRange a n)]

theorem atoiSlow_none (a : Arch) (s : GoString) (h : decimalValue s = none) :
    ∃ v k, atoiSlow a s = (v, some (GoError.numError (lit "Atoi") s k)) := by
  obtain ⟨v, k, hv⟩ := ParseInt_none a s h
  unfold atoiSlow
  rw [hv]
  exact ⟨_, _, rfl⟩

theorem Atoi_fast (a : Arch) (s : GoString) (h : 0 < s.length ∧ s.length < fastLimit a) :
    Atoi a s = atoiFast a s := by
  unfold Atoi
  cases a <;> simp only [intSize, fastLimit] at h ⊢ <;> simp [h]

theorem Atoi_slow (a : Arch) (s : GoString) (h : ¬ (0 < s.length ∧ s.length < fastLimit a)) :
    Atoi a s = atoiSlow a s := by
  unfold Atoi
  cases a <;> simp only [intSize, fastLimit] at h ⊢ <;> simp [h]

theorem fast_bound (a : Arch) (ds : GoString) (hd : ∀ c ∈ ds, isDigit c = true)
    (hl : ds.length + 1 < fastLimit a + 1) :
    inIntRange a (digitsFrom 0 ds : Int) ∧ inIntRange a (-(digitsFrom 0 ds : Int)) := by
  have h1 := digitsFrom_lt ds hd 0
  simp only [Nat.zero_add, Nat.one_mul] at h1
  cases a
  · simp only [fastLimit] at hl
    have h2 : 10 ^ ds.length ≤ 10 ^ 9 := Nat.pow_le_pow_right (by norm_num) (by omega)
    simp only [inIntRange, inRange, intSize]
    norm_num at h2 ⊢
    omega
  · simp only [fastLimit] at hl
    have h2 : 10 ^ ds.length ≤ 10 ^ 18 := Nat.pow_le_pow_right (by norm_num) (by omega)
    simp only [inIntRange, inRange, intSize]
    norm_num at h2 ⊢
    omega

theorem atoiFastLoop_digits (a : Arch) :
    ∀ (ds : GoString) (n : Nat), (∀ c ∈ ds, isDigit c = true) →
      inIntRange a (digitsFrom n ds : Int) →
      atoiFastLoop a ds (n : Int) = some (digitsFrom n ds : Int) := by
  intro ds
  induction ds with
  | nil => intro n _ _; rfl
  | cons c cs ih =>
    intro n hd hr
    have hc := (isDigit_iff c).mp (hd c (List.mem_cons_self _ _))
    have hcs : ∀ x ∈ cs, isDigit x = true := fun x hx => hd x (List.mem_cons_of_mem _ hx)
    rw [digitsFrom_cons] at hr ⊢
    have hge := digitsFrom_ge cs (n * 10 + (c - 48))
    have e1 : (c + 256 - 48) % 256 = c - 48 := by omega
    simp only [atoiFastLoop, e1]
    have h9 : ¬ (c - 48 > 9) := by omega
    rw [if_neg h9]
    have hin : inIntRange a ((n * 10 + (c - 48) : Nat) : Int) := by
      have hr1 := hr
      simp only [inIntRange, inRange] at hr1 ⊢
      constructor
      · have : (0 : Int) ≤ ((n * 10 + (c - 48) : Nat) : Int) := Int.ofNat_nonneg _
        have h2 : -(2 : Int) ^ (intSize a - 1) ≤ 0 := by
          have : (0 : Int) ≤ (2 : Int) ^ (intSize a - 1) := by positivity
          omega
        omega
      · have : ((n * 10 + (c - 48) : Nat) : Int) ≤ (digitsFrom (n * 10 + (c - 48)) cs : Int) := by
          exact_mod_cast hge
        omega
    have e2 : (n : Int) * 10 + ((c - 48 : Nat) : Int) = ((n * 10 + (c - 48) : Nat) : Int) := by
      push_cast
      rfl
    rw [e2, wrapInt_of_inIntRange a _ hin]
    exact ih (n * 10 + (c - 48)) hcs hr

theorem atoiFastLoop_nondigit (a : Arch) :
    ∀ (ds : GoString) (n : Int), WellFormed ds → (∃ c ∈ ds, isDigit c = false) →
      atoiFastLoop a ds n = none := by
  intro ds
  induction ds with
  | nil => intro n _ h; obtain ⟨c, hc, _⟩ := h; simp at hc
  | cons c cs ih =>
    intro n hwf h
    have hc256 : c < 256 := hwf c (List.mem_cons_self _ _)
    by_cases hc : 48 ≤ c ∧ c ≤ 57
    · have hcs : ∃ x ∈ cs, isDigit x = false := by
        obtain ⟨x, hx, hxd⟩ := h
        rcases List.mem_cons.mp hx with h1 | h1
        · subst h1
          have := (isDigit_iff x).mpr hc
          simp [this] at hxd
        · exact ⟨x, h1, hxd⟩
      have h9 : ¬ ((c + 256 - 48) % 256 > 9) := by omega
      simp only [atoiFastLoop, if_neg h9]
      exact ih _ (fun x hx => hwf x (List.mem_cons_of_mem _ hx)) hcs
    · have h9 : (c + 256 - 48) % 256 > 9 := by omega
      simp only [atoiFastLoop, if_pos h9]

theorem atoiFast_some (a : Arch) (s : GoString) (n : Int)
    (hl : s.length < fastLimit a) (h : decimalValue s = some n) :
    inIntRange a n ∧ atoiFast a s = (n, none) := by
  cases s with
  | nil => simp [decimalValue] at h
  | cons c cs =>
    rw [decimalValue_cons] at h
    cases hu : unsignedValue (if c = 43 then cs else if c = 45 then cs else c :: cs) with
    | none => rw [hu] at h; simp at h
    | some v =>
      rw [hu] at h
      simp only [Option.map_some', Option.some.injEq] at h
      obtain ⟨hne, hd, hv⟩ := unsignedValue_some _ v hu
      have hs1 : (if c = 45 ∨ c = 43 then cs else c :: cs) =
          (if c = 43 then cs else if c = 45 then cs else c :: cs) := by
        by_cases h43 : c = 43
        · simp [h43]
        · by_cases h45 : c = 45
          · simp [h45]
          · simp [h43, h45]
      have hlen : (if c = 43 then cs else if c = 45 then cs else c :: cs).length + 1
          < fastLimit a + 1 := by
        simp only [List.length_cons] at hl
        split
        · omega
        · split
          · omega
          · simp only [List.length_cons]; omega
      obtain ⟨hb1, hb2⟩ := fast_bound a _ hd hlen
      rw [← hv] at hb1 hb2
      have hloop := atoiFastLoop_digits a _ 0 hd (by rw [← hv]; exact hb1)
      rw [← hv] at hloop
      have hne1 : ¬ ((c = 45 ∨ c = 43) ∧
          (if c = 45 ∨ c = 43 then cs else c :: cs).length < 1) := by
        rw [hs1]
        rintro ⟨_, h2⟩
        apply hne
        exact List.length_eq_zero.mp (by omega)
      unfold atoiFast
      simp only []
      rw [if_neg hne1, hs1]
      have hloop1 : atoiFastLoop a (if c = 43 then cs else if c = 45 then cs else c :: cs) 0 =
          some (v : Int) := by exact_mod_cast hloop
      rw [hloop1]
      simp only []
      by_cases h45 : c = 45
      · rw [if_pos h45] at h ⊢
        subst h
        exact ⟨hb2, by rw [wrapInt_of_inIntRange a _ hb2]⟩
      · rw [if_neg h45] at h ⊢
        subst h
        exact ⟨hb1, rfl⟩

theorem atoiFast_none (a : Arch) (s : GoString) (hwf : WellFormed s)
    (h : decimalValue s = none) :
    atoiFast a s = (0, some (syntaxError (lit "Atoi") s)) := by
  cases s with
  | nil => rfl
  | cons c cs =>
    rw [decimalValue_cons] at h
    cases hu : unsignedValue (if c = 43 then cs else if c = 45 then cs else c :: cs) with
    | some v => rw [hu] at h; simp at h
    | none =>
      have hs1 : (if c = 45 ∨ c = 43 then cs else c :: cs) =
          (if c = 43 then cs else if c = 45 then cs else c :: cs) := by
        by_cases h43 : c = 43
        · simp [h43]
        · by_cases h45 : c = 45
          · simp [h45]
          · simp [h43, h45]
      unfold atoiFast
      simp only []
      by_cases hcond : (c = 45 ∨ c = 43) ∧
          (if c = 45 ∨ c = 43 then cs else c :: cs).length < 1
      · rw [if_pos hcond]
      · rw [if_neg hcond]
        rw [hs1] at hcond ⊢
        have hne : (if c = 43 then cs else if c = 45 then cs else c :: cs) ≠ [] := by
          intro h0
          rw [h0] at hcond
          apply hcond
          refine ⟨?_, by simp⟩
          by_cases h43 : c = 43
          · exact Or.inr h43
          · by_cases h45 : c = 45
            · exact Or.inl h45
            · simp [h43, h45] at h0
        have hwf1 : WellFormed (if c = 43 then cs else if c = 45 then cs else c :: cs) := by
          have hcs : WellFormed cs := fun x hx => hwf x (List.mem_cons_of_mem _ hx)
          split
          · exact hcs
          · split
            · exact hcs
            · exact hwf
        rw [atoiFastLoop_nondigit a _ 0 hwf1 (exists_nondigit_of_unsignedValue_none _ hne hu)]

/-- On a text that denotes an integer, `Atoi` returns it without error when it
is in the `int` range, and the nearest bound of the range with `ErrRange`
otherwise. -/
theorem Atoi_some (a : Arch) (s : GoString) (n : Int) (h : decimalValue s = some n) :
    Atoi a s =
      if inIntRange a n then (n, none)
      else (clampInt a n, some (rangeError (lit "Atoi") s)) := by
  by_cases hf : 0 < s.length ∧ s.length < fastLimit a
  · rw [Atoi_fast a s hf]
    obtain ⟨hr, he⟩ := atoiFast_some a s n hf.2 h
    rw [if_pos hr, he]
  · rw [Atoi_slow a s hf]
    exact atoiSlow_some a s n h

/-- On a text that does not denote an integer, `Atoi` returns a `NumError`
with `Func = "Atoi"` and `Num` the text. -/
theorem Atoi_none (a : Arch) (s : GoString) (hwf : WellFormed s) (h : decimalValue s = none) :
    ∃ v k, Atoi a s = (v, some (GoError.numError (lit "Atoi") s k)) := by
  by_cases hf : 0 < s.length ∧ s.length < fastLimit a
  · rw [Atoi_fast a s hf, atoiFast_none a s hwf h]
    exact ⟨_, _, rfl⟩
  · rw [Atoi_slow a s hf]
    exact atoiSlow_none a s h

theorem decimalFuel_spec : ∀ (f n : Nat), n ≤ f →
    (∀ c ∈ decimalFuel f n, isDigit c = true) ∧ digitsFrom 0 (decimalFuel f n) = n ∧
      decimalFuel f n ≠ [] := by
  intro f
  induction f with
  | zero =>
    intro n hn
    have h0 : n = 0 := by omega
    subst h0
    refine ⟨?_, ?_, ?_⟩
    · intro c hc
      simp [decimalFuel] at hc
      subst hc
      decide
    · decide
    · simp [decimalFuel]
  | succ f ih =>
    intro n hn
    by_cases h10 : n < 10
    · simp only [decimalFuel, if_pos h10]
      refine ⟨?_, ?_, by simp⟩
      · intro c hc
        simp only [List.mem_singleton] at hc
        subst hc
        rw [isDigit_iff]
        omega
      · simp [digitsFrom]
    · simp only [decimalFuel, if_neg h10]
      obtain ⟨h1, h2, _⟩ := ih (n / 10) (by omega)
      refine ⟨?_, ?_, by simp⟩
      · intro c hc
        rcases List.mem_append.mp hc with hc1 | hc1
        · exact h1 c hc1
        · simp only [List.mem_singleton] at hc1
          subst hc1
          rw [isDigit_iff]
          omega
      · rw [digitsFrom_append, h2]
        simp only [digitsFrom, List.foldl_cons, List.foldl_nil]
        omega

theorem unsignedValue_decimal (m : Nat) : unsignedValue (decimal m) = some m := by
  obtain ⟨h1, h2, h3⟩ := decimalFuel_spec m m (Nat.le_refl _)
  unfold unsignedValue decimal
  have hall : (decimalFuel m m).all isDigit = true := by
    simpa [List.all_eq_true] using h1
  rw [if_pos ⟨h3, hall⟩, digitsValue_eq, h2]

theorem decimal_head (m : Nat) : ∃ c cs, decimal m = c :: cs ∧ c ≠ 43 ∧ c ≠ 45 := by
  obtain ⟨h1, _, h3⟩ := decimalFuel_spec m m (Nat.le_refl _)
  unfold decimal
  cases hd : decimalFuel m m with
  | nil => exact absurd hd h3
  | cons c cs =>
    have := (isDigit_iff c).mp (h1 c (by rw [hd]; exact List.mem_cons_self _ _))
    exact ⟨c, cs, rfl, by omega, by omega⟩

/-- Parsing the `%d` rendering of an integer gives the integer back. -/
theorem decimalValue_fmtInt (n : Int) : decimalValue (fmtInt n) = some n := by
  unfold fmtInt
  by_cases hn : n < 0
  · rw [if_pos hn, decimalValue_cons]
    simp only [show ¬ ((45 : Nat) = 43) by decide, if_false, if_true, unsignedValue_decimal,
      Option.map_some', Option.some.injEq]
    omega
  · rw [if_neg hn]
    obtain ⟨c, cs, hd, h43, h45⟩ := decimal_head n.toNat
    have hu := unsignedValue_decimal n.toNat
    rw [hd] at hu ⊢
    rw [decimalValue_cons, if_neg h43, if_neg h45, hu]
    simp only [Option.map_some', if_neg h45, Option.some.injEq]
    omega

theorem wellFormed_digits (ds : GoString) (h : ∀ c ∈ ds, isDigit c = true) : WellFormed ds := by
  intro c hc
  have := (isDigit_iff c).mp (h c hc)
  omega

theorem wellFormed_fmtInt (n : Int) : WellFormed (fmtInt n) := by
  unfold fmtInt
  split
  · intro c hc
    rcases List.mem_cons.mp hc with h | h
    · omega
    · exact wellFormed_digits _ (decimalFuel_spec _ _ (Nat.le_refl _)).1 c h
  · exact wellFormed_digits _ (decimalFuel_spec _ _ (Nat.le_refl _)).1

theorem decimalValue_chars (s : GoString) (v : Int) (h : decimalValue s = some v) :
    ∀ c ∈ s, isDigit c = true ∨ c = 43 ∨ c = 45 := by
  cases s with
  | nil => simp [decimalValue] at h
  | cons c cs =>
    rw [decimalValue_cons] at h
    cases hu : unsignedValue (if c = 43 then cs else if c = 45 then cs else c :: cs) with
    | none => rw [hu] at h; simp at h
    | some u =>
      obtain ⟨_, hd, _⟩ := unsignedValue_some _ u hu
      intro x hx
      by_cases h43 : c = 43
      · rw [if_pos h43] at hd
        rcases List.mem_cons.mp hx with h1 | h1
        · exact Or.inr (Or.inl (h1.trans h43))
        · exact Or.inl (hd x h1)
      · by_cases h45 : c = 45
        · rw [if_neg h43, if_pos h45] at hd
          rcases List.mem_cons.mp hx with h1 | h1
          · exact Or.inr (Or.inr (h1.trans h45))
          · exact Or.inl (hd x h1)
        · rw [if_neg h43, if_neg h45] at hd
          exact Or.inl (hd x hx)

theorem isSpace_not_numeric (c : Nat) (h : isSpace c = true) :
    c < 256 ∧ ¬ (isDigit c = true ∨ c = 43 ∨ c = 45) := by
  simp only [isSpace, Bool.or_eq_true, beq_iff_eq] at h
  rw [isDigit_iff]
  omega

theorem intFromFile_of_read (env : Env) (path b : GoString)
    (hread : env.readFile path = (b, none)) :
    intFromFile env path =
      match Atoi env.arch b with
      | (_, some err) => (0, some err)
      | (i, none) => (i, none) := by
  unfold intFromFile
  rw [hread]

theorem intFromFile_of_read_error (env : Env) (path b : GoString) (e : GoError)
    (hread : env.readFile path = (b, some e)) :
    intFromFile env path = (0, some e) := by
  unfold intFromFile
  rw [hread]

theorem intFromFile_valid (env : Env) (path b : GoString) (n : Int)
    (hread : env.readFile path = (b, none)) (hv : decimalValue b = some n)
    (hr : inIntRange env.arch n) : intFromFile env path = (n, none) := by
  rw [intFromFile_of_read env path b hread, Atoi_some env.arch b n hv, if_pos hr]

theorem intFromFile_invalid (env : Env) (path b : GoString)
    (hread : env.readFile path = (b, none)) (hwf : WellFormed b)
    (hv : ¬ ValidInt env.arch b) :
    ∃ k, intFromFile env path = (0, some (GoError.numError (lit "Atoi") b k)) ∧
      (Atoi env.arch b).2 = some (GoError.numError (lit "Atoi") b k) := by
  rw [intFromFile_of_read env path b hread]
  cases hd : decimalValue b with
  | none =>
    obtain ⟨v, k, hk⟩ := Atoi_none env.arch b hwf hd
    rw [hk]
    exact ⟨k, rfl, rfl⟩
  | some n =>
    have hr : ¬ inIntRange env.arch n := fun hr => hv ⟨n, hd, hr⟩
    rw [Atoi_some env.arch b n hd, if_neg hr]
    exact ⟨_, rfl, rfl⟩

theorem errorsMain_of_error (env : Env) (e : GoError)
    (h : (intFromFile env (fileName env)).2 = some e) :
    errorsMain env =
      { stdout := lit "failed to read int: " ++ e.Error env.quote ++ lit "\n",
        stderr := [], code := 1 } := by
  unfold errorsMain
  cases hr : intFromFile env (fileName env) with
  | mk i err =>
    rw [hr] at h
    simp only at h
    subst h
    rfl

theorem errorsMain_of_ok (env : Env) (n : Int)
    (h : intFromFile env (fileName env) = (n, none)) :
    errorsMain env =
      { stdout := lit "int is " ++ fmtInt n ++ lit "\n", stderr := [], code := 0 } := by
  unfold errorsMain
  rw [h]

/-- Claim C2, as stated, fails: the content `42` followed by a newline is,
once trimmed, the base-10 text of 42, yet `intFromFile` returns a syntax
error: `strconv.Atoi` is applied to the bytes of the file as they are. -/
theorem intFromFile_does_not_trim :
    trimSpace (lit "42\n") = fmtInt 42 ∧ inIntRange Arch.bits64 42 ∧
      intFromFile (envWithContent Arch.bits64 (lit "42\n")) (lit "yolo") =
        (0, some (syntaxError (lit "Atoi") (lit "42\n"))) ∧
      trimSpace (lit " 42 ") = fmtInt 42 ∧
      intFromFile (envWithContent Arch.bits64 (lit " 42 ")) (lit "yolo") =
        (0, some (syntaxError (lit "Atoi") (lit " 42 "))) := by
  decide

/-- Claim C2, amended: `intFromFile` does not trim.  For a file whose content
is the base-10 text of an integer `n` of the `int` range between white space
`l` and `r`, `intFromFile` returns `(n, nil)` exactly when there is no white
space on either side; with white space on a side it returns 0 and a
`NumError` of `Atoi` for the whole content. -/
theorem intFromFile_untrimmed (env : Env) (path l r : GoString) (n : Int)
    (hrange : inIntRange env.arch n)
    (hl : l.all isSpace = true) (hr : r.all isSpace = true)
    (hread : env.readFile path = (l ++ fmtInt n ++ r, none)) :
    (intFromFile env path = (n, none) ↔ l = [] ∧ r = []) ∧
      (¬ (l = [] ∧ r = []) →
        ∃ k, intFromFile env path =
          (0, some (GoError.numError (lit "Atoi") (l ++ fmtInt n ++ r) k))) := by
  have hl1 : ∀ c ∈ l, isSpace c = true := by simpa [List.all_eq_true] using hl
  have hr1 : ∀ c ∈ r, isSpace c = true := by simpa [List.all_eq_true] using hr
  have hwf : WellFormed (l ++ fmtInt n ++ r) := by
    intro c hc
    simp only [List.mem_append] at hc
    rcases hc with (h | h) | h
    · exact (isSpace_not_numeric c (hl1 c h)).1
    · exact wellFormed_fmtInt n c h
    · exact (isSpace_not_numeric c (hr1 c h)).1
  have hbad : ¬ (l = [] ∧ r = []) →
      ∃ k, intFromFile env path =
        (0, some (GoError.numError (lit "Atoi") (l ++ fmtInt n ++ r) k)) := by
    intro hne
    have hsp : ∃ c ∈ l ++ fmtInt n ++ r, isSpace c = true := by
      by_cases h1 : l = []
      · have h2 : r ≠ [] := fun h2 => hne ⟨h1, h2⟩
        obtain ⟨c, hc⟩ := List.exists_mem_of_ne_nil _ h2
        exact ⟨c, List.mem_append_right _ hc, hr1 c hc⟩
      · obtain ⟨c, hc⟩ := List.exists_mem_of_ne_nil _ h1
        exact ⟨c, List.mem_append_left _ (List.mem_append_left _ hc), hl1 c hc⟩
    obtain ⟨c, hc, hcs⟩ := hsp
    have hinv : ¬ ValidInt env.arch (l ++ fmtInt n ++ r) := by
      rintro ⟨v, hv, _⟩
      exact (isSpace_not_numeric c hcs).2 (decimalValue_chars _ v hv c hc)
    obtain ⟨k, hk, _⟩ := intFromFile_invalid env path _ hread hwf hinv
    exact ⟨k, hk⟩
  refine ⟨⟨?_, ?_⟩, hbad⟩
  · intro hok
    by_contra hne
    obtain ⟨k, hk⟩ := hbad hne
    rw [hk] at hok
    cases hok
  · rintro ⟨h1, h2⟩
    subst h1 h2
    simp only [List.nil_append, List.append_nil] at hread
    exact intFromFile_valid env path _ n hread (decimalValue_fmtInt n) hrange

theorem intFromFile_untrimmed_witness :
    inIntRange Arch.bits64 42 ∧
      (intFromFile (envWithContent Arch.bits64 (lit " 42\n")) (lit "yolo") = (42, none) ↔
        lit " " = [] ∧ lit "\n" = []) :=
  ⟨by decide,
    (intFromFile_untrimmed (envWithContent Arch.bits64 (lit " 42\n")) (lit "yolo") (lit " ")
      (lit "\n") 42 (by decide) (by decide) (by decide) (by decide)).1⟩

/-- Claim C3, as stated, fails: when no file can be read, the line
`failed to read int: ...` is not written to standard error, which stays empty,
and standard output is not empty. -/
theorem failure_line_not_on_stderr :
    (intFromFile (envNoFile Arch.bits64) (fileName (envNoFile Arch.bits64))).2 =
        some (GoError.readError (lit "open yolo: no such file or directory")) ∧
      (errorsMain (envNoFile Arch.bits64)).stderr ≠
        lit "failed to read int: open yolo: no such file or directory\n" ∧
      (errorsMain (envNoFile Arch.bits64)).stdout ≠ [] := by
  decide

/-- Claim C3, amended: in every run in which `intFromFile` returns an error
with message `m`, the program writes the line `failed to read int: m` to
standard output (`fmt.Printf`), writes nothing to standard error, and
terminates with exit code 1. -/
theorem failure_report (env : Env) (e : GoError)
    (h : (intFromFile env (fileName env)).2 = some e) :
    errorsMain env =
      { stdout := lit "failed to read int: " ++ e.Error env.quote ++ lit "\n",
        stderr := [], code := 1 } :=
  errorsMain_of_error env e h

theorem failure_report_witness :
    errorsMain (envNoFile Arch.bits64) =
      { stdout := lit "failed to read int: " ++
          (GoError.readError (lit "open yolo: no such file or directory")).Error
            (envNoFile Arch.bits64).quote ++ lit "\n",
        stderr := [], code := 1 } :=
  failure_report (envNoFile Arch.bits64)
    (GoError.readError (lit "open yolo: no such file or directory")) (by decide)

/-- Claim C4: `intFromFile(path)` returns a non-nil error if and only if
reading the file fails or the content is not a valid base-10 integer (an
optional sign and one or more decimal digits) in the `int` range; the integer
returned with an error is 0 and the error is the very one returned by
`os.ReadFile`, or else by `strconv.Atoi` on the content; `main` then exits
with code 1; without an error the returned integer is the one the content
denotes. -/
theorem intFromFile_error_iff (env : Env) (path : GoString)
    (hwf : WellFormed (env.readFile path).1) :
    ((intFromFile env path).2 ≠ none ↔
        ((env.readFile path).2 ≠ none ∨ ¬ ValidInt env.arch (env.readFile path).1)) ∧
      (∀ e, (intFromFile env path).2 = some e →
        (intFromFile env path).1 = 0 ∧
          ((env.readFile path).2 = some e ∨
            ((env.readFile path).2 = none ∧
              (Atoi env.arch (env.readFile path).1).2 = some e))) ∧
      ((intFromFile env path).2 = none →
        (env.readFile path).2 = none ∧
          decimalValue (env.readFile path).1 = some (intFromFile env path).1 ∧
          inIntRange env.arch (intFromFile env path).1) ∧
      (fileName env = path → (intFromFile env path).2 ≠ none → (errorsMain env).code = 1) := by
  have hmain : fileName env = path → (intFromFile env path).2 ≠ none →
      (errorsMain env).code = 1 := by
    intro hp hne
    subst hp
    cases he : (intFromFile env (fileName env)).2 with
    | none => exact absurd he hne
    | some e => rw [errorsMain_of_error env e he]
  cases hread : env.readFile path with
  | mk b err =>
    rw [hread] at hwf
    simp only at hwf ⊢
    cases err with
    | some e0 =>
      have hi := intFromFile_of_read_error env path b e0 hread
      refine ⟨?_, ?_, ?_, hmain⟩
      · rw [hi]; simp
      · intro e he
        rw [hi] at he ⊢
        simp only [Option.some.injEq] at he
        subst he
        exact ⟨rfl, Or.inl rfl⟩
      · intro hn
        rw [hi] at hn
        cases hn
    | none =>
      by_cases hv : ValidInt env.arch b
      · obtain ⟨n, hn, hr⟩ := hv
        have hi := intFromFile_valid env path b n hread hn hr
        refine ⟨?_, ?_, ?_, hmain⟩
        · rw [hi]
          constructor
          · intro h; exact absurd rfl h
          · rintro (h | h)
            · exact absurd rfl h
            · exact absurd ⟨n, hn, hr⟩ h
        · intro e he
          rw [hi] at he
          cases he
        · intro _
          rw [hi]
          exact ⟨rfl, hn, hr⟩
      · obtain ⟨k, hk, hk2⟩ := intFromFile_invalid env path b hread hwf hv
        refine ⟨?_, ?_, ?_, hmain⟩
        · rw [hk]
          constructor
          · intro _; exact Or.inr hv
          · intro _ h; cases h
        · intro e he
          rw [hk] at he ⊢
          simp only [Option.some.injEq] at he
          subst he
          exact ⟨rfl, Or.inr ⟨rfl, hk2⟩⟩
        · intro hn
          rw [hk] at hn
          cases hn

theorem intFromFile_error_iff_witness :
    WellFormed ((envWithContent Arch.bits64 (lit "abc")).readFile (lit "yolo")).1 ∧
      (intFromFile (envWithContent Arch.bits64 (lit "abc")) (lit "yolo")).2 ≠ none ∧
      (errorsMain (envWithContent Arch.bits64 (lit "abc"))).code = 1 :=
  ⟨by decide, by decide,
    (intFromFile_error_iff (envWithContent Arch.bits64 (lit "abc")) (lit "yolo")
      (by decide)).2.2.2 (by decide) (by decide)⟩

/-- Claim C5: for every integer `n` of the `int` range, when the content of
the file is exactly the decimal rendering of `n`, `intFromFile` returns
`(n, nil)`, and the program prints exactly the line `int is n` to standard
output, nothing to standard error, and exits with code 0. -/
theorem intFromFile_round_trip (env : Env) (path : GoString) (n : Int)
    (hrange : inIntRange env.arch n)
    (hread : env.readFile path = (fmtInt n, none)) :
    intFromFile env path = (n, none) ∧
      (fileName env = path →
        errorsMain env =
          { stdout := lit "int is " ++ fmtInt n ++ lit "\n", stderr := [], code := 0 }) := by
  have h1 := intFromFile_valid env path _ n hread (decimalValue_fmtInt n) hrange
  refine ⟨h1, ?_⟩
  intro hp
  subst hp
  exact errorsMain_of_ok env n h1

theorem intFromFile_round_trip_witness :
    inIntRange Arch.bits64 42 ∧ fmtInt 42 = lit "42" ∧
      intFromFile (envWithContent Arch.bits64 (lit "42")) (lit "yolo") = (42, none) ∧
      errorsMain (envWithContent Arch.bits64 (lit "42")) =
        { stdout := lit "int is " ++ fmtInt 42 ++ lit "\n", stderr := [], code := 0 } :=
  ⟨by decide, by decide,
    (intFromFile_round_trip (envWithContent Arch.bits64 (lit "42")) (lit "yolo") 42
      (by decide) (by decide)).1,
    (intFromFile_round_trip (envWithContent Arch.bits64 (lit "42")) (lit "yolo") 42
      (by decide) (by decide)).2 (by decide)⟩

/-! ## Proofs for `option.go` -/

theorem occursAt_zero (s substr : GoString) :
    OccursAt s substr 0 ↔ s.take substr.length = substr := by
  unfold OccursAt
  constructor
  · intro h; simpa using h.2
  · intro h
    refine ⟨?_, by simpa using h⟩
    have hl := congrArg List.length h
    simp only [List.length_take] at hl
    omega

theorem occursAt_succ (c : Nat) (cs substr : GoString) (j : Nat) :
    OccursAt (c :: cs) substr (j + 1) ↔ OccursAt cs substr j := by
  unfold OccursAt
  simp only [List.length_cons, List.drop_succ_cons]
  constructor
  · rintro ⟨h1, h2⟩; exact ⟨by omega, h2⟩
  · rintro ⟨h1, h2⟩; exact ⟨by omega, h2⟩

theorem occursAt_nil (substr : GoString) (j : Nat) (hne : substr ≠ []) :
    ¬ OccursAt [] substr j := by
  unfold OccursAt
  rintro ⟨h1, _⟩
  have : 0 < substr.length := List.length_pos.mpr hne
  simp only [List.length_nil] at h1
  omega

theorem indexScan_spec (substr : GoString) (hne : substr ≠ []) :
    ∀ (s : GoString) (i : Nat),
      (indexScan substr s i = -1 ∧ ∀ j, ¬ OccursAt s substr j) ∨
      (∃ k : Nat, indexScan substr s i = ((i + k : Nat) : Int) ∧ OccursAt s substr k ∧
        ∀ j, j < k → ¬ OccursAt s substr j) := by
  intro s
  induction s with
  | nil =>
    intro i
    exact Or.inl ⟨rfl, fun j => occursAt_nil substr j hne⟩
  | cons c cs ih =>
    intro i
    by_cases h0 : (c :: cs).take substr.length = substr
    · right
      refine ⟨0, ?_, (occursAt_zero _ _).mpr h0, fun j hj => absurd hj (Nat.not_lt_zero j)⟩
      simp [indexScan, h0]
    · have hstep : indexScan substr (c :: cs) i = indexScan substr cs (i + 1) := by
        simp [indexScan, h0]
      rcases ih (i + 1) with ⟨h1, h2⟩ | ⟨k, h1, h2, h3⟩
      · left
        refine ⟨hstep.trans h1, ?_⟩
        intro j
        cases j with
        | zero => exact fun h => h0 ((occursAt_zero _ _).mp h)
        | succ j => exact fun h => h2 j ((occursAt_succ _ _ _ _).mp h)
      · right
        refine ⟨k + 1, ?_, (occursAt_succ _ _ _ _).mpr h2, ?_⟩
        · rw [hstep, h1]; congr 1; omega
        · intro j hj
          cases j with
          | zero => exact fun h => h0 ((occursAt_zero _ _).mp h)
          | succ j => exact fun h => h3 j (by omega) ((occursAt_succ _ _ _ _).mp h)

/-- `Index` returns `-1` exactly when there is no occurrence, and otherwise
the least offset of an occurrence. -/
theorem Index_spec (s substr : GoString) :
    (Index s substr = -1 ∧ ∀ j, ¬ OccursAt s substr j) ∨
    (∃ k : Nat, Index s substr = (k : Int) ∧ OccursAt s substr k ∧
      ∀ j, j < k → ¬ OccursAt s substr j) := by
  unfold Index
  simp only
  by_cases hn : substr.length = 0
  · right
    refine ⟨0, by simp [hn], ?_, fun j hj => absurd hj (Nat.not_lt_zero j)⟩
    have : substr = [] := List.length_eq_zero.mp hn
    subst this
    simp [OccursAt]
  · have hne : substr ≠ [] := fun h => hn (by simp [h])
    by_cases hl : substr.length = s.length
    · by_cases he : substr = s
      · right
        subst he
        refine ⟨0, ?_, (occursAt_zero _ _).mpr (by simp),
          fun j hj => absurd hj (Nat.not_lt_zero j)⟩
        rw [if_neg hn, if_pos rfl, if_pos rfl]
        rfl
      · left
        refine ⟨by rw [if_neg hn, if_pos hl, if_neg he], ?_⟩
        rintro j ⟨h1, h2⟩
        have hj : j = 0 := by omega
        subst hj
        apply he
        rw [← h2, hl]
        simp
    · by_cases hg : substr.length > s.length
      · left
        refine ⟨by rw [if_neg hn, if_neg hl, if_pos hg], ?_⟩
        rintro j ⟨h1, _⟩
        omega
      · have := indexScan_spec substr hne s 0
        rw [if_neg hn, if_neg hl, if_neg hg]
        simpa using this

theorem slice_of_occursAt (s substr : GoString) (k : Nat) (h : OccursAt s substr k) :
    slice s (k : Int) ((k : Int) + (substr.length : Int)) = some substr := by
  obtain ⟨h1, h2⟩ := h
  unfold slice
  have hc : (0 : Int) ≤ (k : Int) ∧ (k : Int) ≤ (k : Int) + (substr.length : Int) ∧
      (k : Int) + (substr.length : Int) ≤ (s.length : Int) := by
    refine ⟨by omega, by omega, by omega⟩
  rw [if_pos hc]
  have e1 : ((k : Int) + (substr.length : Int)).toNat - (k : Int).toNat = substr.length := by
    omega
  have e2 : (k : Int).toNat = k := by omega
  rw [e1, e2, h2]

theorem leastOccurrence_eq_some (s substr : GoString) (k : Nat)
    (h : OccursAt s substr k) (hmin : ∀ j, j < k → ¬ OccursAt s substr j) :
    leastOccurrence s substr = some k := by
  have hk : k < s.length + 1 := by have := h.1; omega
  have hex : ∃ i, i < s.length + 1 ∧ OccursAt s substr i := ⟨k, hk, h⟩
  unfold leastOccurrence
  rw [dif_pos hex]
  congr 1
  rw [Nat.find_eq_iff]
  exact ⟨⟨hk, h⟩, fun j hj hc => hmin j hj hc.2⟩

theorem leastOccurrence_eq_none (s substr : GoString)
    (h : ∀ j, ¬ OccursAt s substr j) : leastOccurrence s substr = none := by
  unfold leastOccurrence
  rw [dif_neg]
  rintro ⟨i, _, hi⟩
  exact h i hi

theorem decimalFuel_eq_decimalText : ∀ (f n : Nat), n ≤ f → decimalFuel f n = decimalText n := by
  intro f
  induction f with
  | zero =>
    intro n hn
    have h0 : n = 0 := by omega
    subst h0
    rfl
  | succ f ih =>
    intro n hn
    by_cases h10 : n < 10
    · simp only [decimalFuel, if_pos h10]
      by_cases h0 : n = 0
      · subst h0; rfl
      · have hd : Nat.digits 10 n = [n] := by
          rw [Nat.digits_def' (by norm_num) (by omega), Nat.mod_eq_of_lt h10,
            Nat.div_eq_of_lt h10, Nat.digits_zero]
        simp only [decimalText, if_neg h0, hd, List.reverse_singleton, List.map_singleton]
    · simp only [decimalFuel, if_neg h10]
      have h0 : n ≠ 0 := by omega
      have h1 : n / 10 ≠ 0 := by omega
      rw [ih (n / 10) (by omega)]
      have hd : Nat.digits 10 n = (n % 10) :: Nat.digits 10 (n / 10) :=
        Nat.digits_def' (by norm_num) (by omega)
      simp only [decimalText, if_neg h0, if_neg h1, hd, List.reverse_cons, List.map_append,
        List.map_singleton]

theorem decimal_eq_decimalText (n : Nat) : decimal n = decimalText n :=
  decimalFuel_eq_decimalText n n (Nat.le_refl _)

/-- The line the program prints is the specified line. -/
theorem foundLine_eq_expectedLine (subString fullString : GoString) (i : Nat) :
    foundLine subString fullString (i : Int) = expectedLine subString fullString i := by
  have h1 : lit "substring " = [115, 117, 98, 115, 116, 114, 105, 110, 103, 32] := by decide
  have h2 : lit " was found in " =
      [32, 119, 97, 115, 32, 102, 111, 117, 110, 100, 32, 105, 110, 32] := by decide
  have h3 : lit " at index " = [32, 97, 116, 32, 105, 110, 100, 101, 120, 32] := by decide
  have h4 : lit "\n" = [10] := by decide
  have h5 : fmtInt (i : Int) = decimalText i := by
    unfold fmtInt
    have hn : ¬ ((i : Int) < 0) := by omega
    rw [if_neg hn, Int.toNat_ofNat]
    exact decimal_eq_decimalText i
  unfold foundLine expectedLine
  rw [h1, h2, h3, h4, h5]

theorem locateLoop_eq (fullString : GoString) :
    ∀ (subStrings : List GoString) (out : GoString),
      locateLoop fullString subStrings out =
        { stdout := out ++ expectedOutput fullString subStrings, panicked := none } := by
  intro subStrings
  induction subStrings with
  | nil => intro out; simp [locateLoop, expectedOutput]
  | cons sub rest ih =>
    intro out
    rcases Index_spec fullString sub with ⟨h1, h2⟩ | ⟨k, h1, h2, h3⟩
    · have hl := leastOccurrence_eq_none fullString sub h2
      simp only [locateLoop, h1, if_true, ih, expectedOutput, List.map_cons, hl,
        List.flatten_cons, List.nil_append]
    · have hl := leastOccurrence_eq_some fullString sub k h2 h3
      have hs := slice_of_occursAt fullString sub k h2
      have hk : ¬ ((k : Int) = -1) := by omega
      simp only [locateLoop, h1, hk, if_false, hs, ne_eq, not_true_eq_false, ih,
        expectedOutput, List.map_cons, hl, List.flatten_cons, List.append_assoc,
        foundLine_eq_expectedLine]

/-! ## Proofs for `threading.go` -/

theorem mapStore_id (m : GoMap) (k : Nat) (hid : ∀ p ∈ m, p.2 = p.1) :
    mapStore m k k = if (∃ p ∈ m, p.1 = k) then m else m ++ [(k, k)] := by
  induction m with
  | nil => simp [mapStore]
  | cons hd m ih =>
    obtain ⟨k1, v1⟩ := hd
    have hv : v1 = k1 := hid (k1, v1) (List.mem_cons_self _ _)
    have ih1 := ih (fun p hp => hid p (List.mem_cons_of_mem _ hp))
    by_cases hk : k1 = k
    · subst hk
      subst hv
      have hex : ∃ p ∈ (v1, v1) :: m, p.1 = v1 := ⟨(v1, v1), List.mem_cons_self _ _, rfl⟩
      rw [if_pos hex]
      simp [mapStore]
    · by_cases hex : ∃ p ∈ m, p.1 = k
      · have hex1 : ∃ p ∈ (k1, v1) :: m, p.1 = k := by
          obtain ⟨q, hq, hqk⟩ := hex
          exact ⟨q, List.mem_cons_of_mem _ hq, hqk⟩
        rw [if_pos hex1]
        rw [if_pos hex] at ih1
        simp [mapStore, hk, ih1]
      · have hex1 : ¬ ∃ p ∈ (k1, v1) :: m, p.1 = k := by
          rintro ⟨q, hq, hqk⟩
          rcases List.mem_cons.mp hq with h | h
          · subst h; exact hk hqk
          · exact hex ⟨q, h, hqk⟩
        rw [if_neg hex1]
        rw [if_neg hex] at ih1
        simp [mapStore, hk, ih1]

theorem idMap_length (n : Nat) : (idMap n).length = n := by
  simp [idMap]

theorem idMap_succ (n : Nat) : idMap (n + 1) = idMap n ++ [(n, n)] := by
  simp [idMap, List.range_succ]

theorem mem_idMap (n : Nat) (p : Nat × Nat) : p ∈ idMap n ↔ p.1 < n ∧ p.2 = p.1 := by
  obtain ⟨a, b⟩ := p
  simp only [idMap, List.mem_map, List.mem_range, Prod.mk.injEq]
  constructor
  · rintro ⟨k, hk, rfl, rfl⟩; exact ⟨hk, rfl⟩
  · rintro ⟨h1, h2⟩; exact ⟨a, h1, rfl, h2.symm⟩

theorem mapStore_idMap (n k : Nat) (hk : k ≤ n) :
    mapStore (idMap n) k k = idMap (if k < n then n else n + 1) := by
  rw [mapStore_id _ _ (fun p hp => ((mem_idMap n p).mp hp).2)]
  by_cases h : k < n
  · have hex : ∃ p ∈ idMap n, p.1 = k := ⟨(k, k), (mem_idMap n (k, k)).mpr ⟨h, rfl⟩, rfl⟩
    rw [if_pos hex, if_pos h]
  · have hex : ¬ ∃ p ∈ idMap n, p.1 = k := by
      rintro ⟨q, hq, hqk⟩
      have := ((mem_idMap n q).mp hq).1
      omega
    have hkn : k = n := by omega
    rw [if_neg hex, if_neg h, idMap_succ, hkn]

theorem mapLookup_append (m : GoMap) (a b k : Nat) :
    mapLookup (m ++ [(a, b)]) k =
      match mapLookup m k with
      | some v => some v
      | none => if a = k then some b else none := by
  induction m with
  | nil => simp [mapLookup]
  | cons hd m ih =>
    obtain ⟨k1, v1⟩ := hd
    by_cases h : k1 = k
    · simp [mapLookup, h]
    · simp [mapLookup, h, ih]

theorem mapLookup_idMap (n k : Nat) :
    mapLookup (idMap n) k = if k < n then some k else none := by
  induction n with
  | zero => simp [idMap, mapLookup]
  | succ n ih =>
    rw [idMap_succ, mapLookup_append, ih]
    by_cases h : k < n
    · have : k < n + 1 := by omega
      simp [h, this]
    · by_cases h2 : n = k
      · subst h2; simp
      · have : ¬ k < n + 1 := by omega
        simp [h, h2, this]

theorem unfinished_append_running (ws : List Worker) (r : Nat) :
    unfinished (ws ++ [Worker.running r]) = unfinished ws + 1 := by
  induction ws with
  | nil => simp [unfinished]
  | cons w ws ih => cases w <;> simp [unfinished, ih]

theorem unfinished_set_running (ws : List Worker) (j r r1 : Nat)
    (h : ws[j]? = some (Worker.running r)) :
    unfinished (ws.set j (Worker.running r1)) = unfinished ws := by
  induction ws generalizing j with
  | nil => simp at h
  | cons w ws ih =>
    cases j with
    | zero =>
      simp only [List.getElem?_cons_zero, Option.some.injEq] at h
      subst h
      simp [unfinished]
    | succ j =>
      simp only [List.getElem?_cons_succ] at h
      cases w <;> simp [unfinished, ih j h]

theorem unfinished_set_finished (ws : List Worker) (j r : Nat)
    (h : ws[j]? = some (Worker.running r)) :
    unfinished (ws.set j Worker.finished) + 1 = unfinished ws := by
  induction ws generalizing j with
  | nil => simp at h
  | cons w ws ih =>
    cases j with
    | zero =>
      simp only [List.getElem?_cons_zero, Option.some.injEq] at h
      subst h
      simp [unfinished]
    | succ j =>
      simp only [List.getElem?_cons_succ] at h
      cases w
      · simp only [List.set_cons_succ, unfinished]
        have := ih j h
        omega
      · simp only [List.set_cons_succ, unfinished]
        exact ih j h

theorem all_finished_of_unfinished_zero (ws : List Worker) (h : unfinished ws = 0) :
    ∀ w ∈ ws, w = Worker.finished := by
  induction ws with
  | nil => intro w hw; simp at hw
  | cons w ws ih =>
    cases w with
    | running r => simp [unfinished] at h
    | finished =>
      intro w hw
      rcases List.mem_cons.mp hw with h1 | h1
      · exact h1
      · exact ih (by simpa [unfinished] using h) w h1

theorem inv_init (T R : Nat) : Inv T R init := by
  constructor <;> simp [init, idMap, unfinished]

theorem inv_step_main (T R : Nat) (s s1 : State) (h : Inv T R s)
    (hs : step T R s Thread.main = some s1) : Inv T R s1 := by
  obtain ⟨h1, h2, h3, h4, h5, h6, h7, h8, h9, h10⟩ := h
  obtain ⟨x, wg, i, pc, workers, out⟩ := s
  simp only at h1 h2 h3 h4 h5 h6 h7 h8 h9 h10
  cases pc with
  | loop =>
    simp only [step] at hs
    have hout : out = none := by
      cases hout : out with
      | none => rfl
      | some p => exact absurd (h10 p.1 p.2 (by rw [hout])).1 (by decide)
    have h4a : wg = (unfinished workers : Int) := by simpa using h4
    by_cases hi : i < T
    · rw [if_pos hi] at hs
      cases hs
      exact
        { map_id := h1, prog_le := h2, len_le := h3,
          wg_eq := by
            show wg + 1 = (unfinished workers : Int) + (if MainPc.launch = MainPc.launch then 1 else 0)
            rw [if_pos rfl, h4a]
          launched := h5, i_le := h6, i_lt := fun _ => hi,
          i_eq := fun hp => by
            have hp1 : MainPc.launch = MainPc.wait ∨ MainPc.launch = MainPc.print ∨
              MainPc.launch = MainPc.returned := hp
            simp at hp1
          all_done := fun hp => by
            have hp1 : MainPc.launch = MainPc.print ∨ MainPc.launch = MainPc.returned := hp
            simp at hp1
          out_eq := fun m e hme => by
            have hme1 : out = some (m, e) := hme
            rw [hout] at hme1
            cases hme1 }
    · rw [if_neg hi] at hs
      cases hs
      exact
        { map_id := h1, prog_le := h2, len_le := h3,
          wg_eq := by
            show wg = (unfinished workers : Int) + (if MainPc.wait = MainPc.launch then 1 else 0)
            rw [if_neg (by decide), h4a]; simp
          launched := h5, i_le := h6,
          i_lt := fun hp => by
            have hp1 : MainPc.wait = MainPc.launch := hp
            cases hp1
          i_eq := fun _ => by
            show i = T
            omega
          all_done := fun hp => by
            have hp1 : MainPc.wait = MainPc.print ∨ MainPc.wait = MainPc.returned := hp
            simp at hp1
          out_eq := fun m e hme => by
            have hme1 : out = some (m, e) := hme
            rw [hout] at hme1
            cases hme1 }
  | launch =>
    simp only [step, Option.some.injEq] at hs
    subst hs
    have hout : out = none := by
      cases hout : out with
      | none => rfl
      | some p => exact absurd (h10 p.1 p.2 (by rw [hout])).1 (by decide)
    have hi := h7 rfl
    have h4a : wg = (unfinished workers : Int) + 1 := by simpa using h4
    exact
      { map_id := h1,
        prog_le := by
          show ∀ w ∈ workers ++ [Worker.running 0], progress R w ≤ x.length
          intro w hw
          rcases List.mem_append.mp hw with hw1 | hw1
          · exact h2 w hw1
          · have hw2 : w = Worker.running 0 := by simpa using hw1
            subst hw2
            simp [progress]
        len_le := h3,
        wg_eq := by
          show wg = (unfinished (workers ++ [Worker.running 0]) : Int) +
            (if MainPc.loop = MainPc.launch then 1 else 0)
          rw [if_neg (by decide), unfinished_append_running, h4a]
          push_cast
          ring
        launched := by
          show (workers ++ [Worker.running 0]).length = i + 1
          simp [h5]
        i_le := hi,
        i_lt := fun hp => by
          have hp1 : MainPc.loop = MainPc.launch := hp
          cases hp1
        i_eq := fun hp => by
          have hp1 : MainPc.loop = MainPc.wait ∨ MainPc.loop = MainPc.print ∨
            MainPc.loop = MainPc.returned := hp
          simp at hp1
        all_done := fun hp => by
          have hp1 : MainPc.loop = MainPc.print ∨ MainPc.loop = MainPc.returned := hp
          simp at hp1
        out_eq := fun m e hme => by
          have hme1 : out = some (m, e) := hme
          rw [hout] at hme1
          cases hme1 }
  | wait =>
    simp only [step] at hs
    have hout : out = none := by
      cases hout : out with
      | none => rfl
      | some p => exact absurd (h10 p.1 p.2 (by rw [hout])).1 (by decide)
    have h4a : wg = (unfinished workers : Int) := by simpa using h4
    by_cases hw : wg = 0
    · rw [if_pos hw] at hs
      cases hs
      have hz : unfinished workers = 0 := by omega
      have hall := all_finished_of_unfinished_zero workers hz
      exact
        { map_id := h1, prog_le := h2, len_le := h3,
          wg_eq := by
            show wg = (unfinished workers : Int) + (if MainPc.print = MainPc.launch then 1 else 0)
            rw [if_neg (by decide), h4a]; simp
          launched := h5, i_le := h6,
          i_lt := fun hp => by
            have hp1 : MainPc.print = MainPc.launch := hp
            cases hp1
          i_eq := fun _ => h8 (Or.inl rfl),
          all_done := fun _ => hall,
          out_eq := fun m e hme => by
            have hme1 : out = some (m, e) := hme
            rw [hout] at hme1
            cases hme1 }
    · rw [if_neg hw] at hs
      cases hs
  | print =>
    simp only [step, Option.some.injEq] at hs
    subst hs
    have h4a : wg = (unfinished workers : Int) := by simpa using h4
    exact
      { map_id := h1, prog_le := h2, len_le := h3,
        wg_eq := by
          show wg = (unfinished workers : Int) + (if MainPc.returned = MainPc.launch then 1 else 0)
          rw [if_neg (by decide), h4a]; simp
        launched := h5, i_le := h6,
        i_lt := fun hp => by
          have hp1 : MainPc.returned = MainPc.launch := hp
          cases hp1
        i_eq := fun _ => h8 (Or.inr (Or.inl rfl)),
        all_done := fun _ => h9 (Or.inl rfl),
        out_eq := fun m e hme => by
          have hme1 : some (x, T * R) = some (m, e) := hme
          simp only [Option.some.injEq, Prod.mk.injEq] at hme1
          exact ⟨rfl, hme1.1.symm, hme1.2.symm⟩ }
  | returned => simp [step] at hs

theorem inv_step_worker (T R : Nat) (s s1 : State) (j : Nat) (h : Inv T R s)
    (hs : step T R s (Thread.worker j) = some s1) : Inv T R s1 := by
  obtain ⟨h1, h2, h3, h4, h5, h6, h7, h8, h9, h10⟩ := h
  obtain ⟨x, wg, i, pc, workers, out⟩ := s
  simp only at h1 h2 h3 h4 h5 h6 h7 h8 h9 h10
  simp only [step] at hs
  cases hj : workers[j]? with
  | none => simp [hj] at hs
  | some w =>
    cases w with
    | finished => simp [hj] at hs
    | running r =>
      have hmem : Worker.running r ∈ workers := List.getElem?_mem hj
      have hr : r ≤ x.length := h2 _ hmem
      have hnd : ¬ (pc = MainPc.print ∨ pc = MainPc.returned) := by
        intro hp
        have := h9 hp _ hmem
        cases this
      have hout : out = none := by
        cases hout : out with
        | none => rfl
        | some p => exact absurd (Or.inr (h10 p.1 p.2 (by rw [hout])).1) hnd
      simp only [hj] at hs
      by_cases hrR : r < R
      · rw [if_pos hrR] at hs
        cases hs
        have hstore : mapStore x r r = idMap (if r < x.length then x.length else x.length + 1) := by
          have := mapStore_idMap x.length r hr
          rw [← h1] at this
          exact this
        have hlen : (mapStore x r r).length = if r < x.length then x.length else x.length + 1 := by
          rw [hstore, idMap_length]
        constructor
        · show mapStore x r r = idMap (mapStore x r r).length
          rw [hlen]; exact hstore
        · show ∀ w ∈ workers.set j (Worker.running (r + 1)),
            progress R w ≤ (mapStore x r r).length
          intro w hw
          rw [hlen]
          rcases List.mem_or_eq_of_mem_set hw with hw1 | hw1
          · have := h2 w hw1
            split <;> omega
          · subst hw1
            simp only [progress]
            split <;> omega
        · show (mapStore x r r).length ≤ R
          rw [hlen]; split <;> omega
        · show wg = (unfinished (workers.set j (Worker.running (r + 1))) : Int) + _
          rw [unfinished_set_running workers j r (r + 1) hj]
          exact h4
        · show (workers.set j (Worker.running (r + 1))).length = i
          simpa using h5
        · exact h6
        · exact h7
        · exact h8
        · intro hp; exact absurd hp hnd
        · intro m e hme
          simp only [hout] at hme
          cases hme
      · rw [if_neg hrR] at hs
        cases hs
        constructor
        · exact h1
        · show ∀ w ∈ workers.set j Worker.finished, progress R w ≤ x.length
          intro w hw
          rcases List.mem_or_eq_of_mem_set hw with hw1 | hw1
          · exact h2 w hw1
          · subst hw1
            simp only [progress]
            omega
        · exact h3
        · show wg - 1 = (unfinished (workers.set j Worker.finished) : Int) + _
          have := unfinished_set_finished workers j r hj
          simp only at h4 ⊢
          omega
        · show (workers.set j Worker.finished).length = i
          simpa using h5
        · exact h6
        · exact h7
        · exact h8
        · intro hp; exact absurd hp hnd
        · intro m e hme
          simp only [hout] at hme
          cases hme

theorem inv_step (T R : Nat) (s s1 : State) (t : Thread) (h : Inv T R s)
    (hs : step T R s t = some s1) : Inv T R s1 := by
  cases t with
  | main => exact inv_step_main T R s s1 h hs
  | worker j => exact inv_step_worker T R s s1 j h hs

theorem inv_exec (T R : Nat) (sched : List Thread) :
    ∀ (s s1 : State), Inv T R s → exec T R sched s = some s1 → Inv T R s1 := by
  induction sched with
  | nil =>
    intro s s1 h hs
    simp only [exec, Option.some.injEq] at hs
    subst hs
    exact h
  | cons t ts ih =>
    intro s s1 h hs
    simp only [exec] at hs
    cases hst : step T R s t with
    | none => simp [hst] at hs
    | some s2 =>
      simp only [hst] at hs
      exact ih s2 s1 (inv_step T R s s2 t h hst) hs

/-- Every state reached from the initial state satisfies the invariant. -/
theorem inv_reachable (T R : Nat) (sched : List Thread) (s : State)
    (h : exec T R sched init = some s) : Inv T R s :=
  inv_exec T R sched init s (inv_init T R) h

theorem remaining_append_running (R : Nat) (ws : List Worker) :
    remaining R (ws ++ [Worker.running 0]) = remaining R ws + (R + 1) := by
  induction ws with
  | nil => simp [remaining]
  | cons w ws ih =>
    cases w with
    | running r =>
      show (R - r + 1) + remaining R (ws ++ [Worker.running 0]) =
        (R - r + 1) + remaining R ws + (R + 1)
      rw [ih]
      omega
    | finished =>
      show remaining R (ws ++ [Worker.running 0]) = remaining R ws + (R + 1)
      exact ih

theorem remaining_set_running (R : Nat) (ws : List Worker) (j r : Nat)
    (h : ws[j]? = some (Worker.running r)) (hr : r < R) :
    remaining R (ws.set j (Worker.running (r + 1))) + 1 = remaining R ws := by
  induction ws generalizing j with
  | nil => simp at h
  | cons w ws ih =>
    cases j with
    | zero =>
      simp only [List.getElem?_cons_zero, Option.some.injEq] at h
      subst h
      simp only [List.set_cons_zero, remaining]
      omega
    | succ j =>
      simp only [List.getElem?_cons_succ] at h
      have := ih j h
      cases w <;> simp only [List.set_cons_succ, remaining] <;> omega

theorem remaining_set_finished (R : Nat) (ws : List Worker) (j r : Nat)
    (h : ws[j]? = some (Worker.running r)) :
    remaining R (ws.set j Worker.finished) < remaining R ws := by
  induction ws generalizing j with
  | nil => simp at h
  | cons w ws ih =>
    cases j with
    | zero =>
      simp only [List.getElem?_cons_zero, Option.some.injEq] at h
      subst h
      simp only [List.set_cons_zero, remaining]
      omega
    | succ j =>
      simp only [List.getElem?_cons_succ] at h
      have := ih j h
      cases w <;> simp only [List.set_cons_succ, remaining] <;> omega

theorem exists_running_of_unfinished_pos (ws : List Worker) (h : 0 < unfinished ws) :
    ∃ (j r : Nat), ws[j]? = some (Worker.running r) := by
  induction ws with
  | nil => simp [unfinished] at h
  | cons w ws ih =>
    cases w with
    | running r => exact ⟨0, r, by simp⟩
    | finished =>
      obtain ⟨j, r, hj⟩ := ih (by simpa [unfinished] using h)
      exact ⟨j + 1, r, by simpa using hj⟩

/-- No deadlock, and progress: as long as `main` has not returned some thread
can take a step, and that step brings the run closer to its end. -/
theorem progress_step (T R : Nat) (s : State) (h : Inv T R s)
    (hpc : s.pc ≠ MainPc.returned) :
    ∃ t s1, step T R s t = some s1 ∧ stepsLeft T R s1 < stepsLeft T R s := by
  obtain ⟨x, wg, i, pc, workers, out⟩ := s
  have hwg := h.wg_eq
  have hlt := h.i_lt
  have hieq := h.i_eq
  simp only at hpc hwg hlt hieq
  cases pc with
  | loop =>
    by_cases hi : i < T
    · refine ⟨Thread.main,
        { x := x, wg := wg + 1, i := i, pc := MainPc.launch, workers := workers, out := out },
        by simp only [step, if_pos hi], ?_⟩
      simp only [stepsLeft]
      omega
    · refine ⟨Thread.main,
        { x := x, wg := wg, i := i, pc := MainPc.wait, workers := workers, out := out },
        by simp only [step, if_neg hi], ?_⟩
      simp only [stepsLeft]
      omega
  | launch =>
    have hi := hlt rfl
    refine ⟨Thread.main,
      { x := x, wg := wg, i := i + 1, pc := MainPc.loop,
        workers := workers ++ [Worker.running 0], out := out },
      by simp only [step], ?_⟩
    simp only [stepsLeft, remaining_append_running]
    obtain ⟨d, hd⟩ : ∃ d, T - i = d + 1 := ⟨T - i - 1, by omega⟩
    have hd1 : T - (i + 1) = d := by omega
    rw [hd, hd1, Nat.succ_mul]
    omega
  | wait =>
    by_cases hw : wg = 0
    · refine ⟨Thread.main,
        { x := x, wg := wg, i := i, pc := MainPc.print, workers := workers, out := out },
        by simp only [step, if_pos hw], ?_⟩
      simp only [stepsLeft]
      omega
    · have hu : 0 < unfinished workers := by
        simp only [reduceCtorEq, if_false] at hwg
        omega
      obtain ⟨j, r, hj⟩ := exists_running_of_unfinished_pos workers hu
      by_cases hr : r < R
      · refine ⟨Thread.worker j,
          { x := mapStore x r r, wg := wg, i := i, pc := MainPc.wait,
            workers := workers.set j (Worker.running (r + 1)), out := out },
          by simp only [step, hj, if_pos hr], ?_⟩
        have := remaining_set_running R workers j r hj hr
        simp only [stepsLeft]
        omega
      · refine ⟨Thread.worker j,
          { x := x, wg := wg - 1, i := i, pc := MainPc.wait,
            workers := workers.set j Worker.finished, out := out },
          by simp only [step, hj, if_neg hr], ?_⟩
        have := remaining_set_finished R workers j r hj
        simp only [stepsLeft]
        omega
  | print =>
    refine ⟨Thread.main,
      { x := x, wg := wg, i := i, pc := MainPc.returned, workers := workers,
        out := some (x, T * R) },
      by simp only [step], ?_⟩
    simp only [stepsLeft]
    omega
  | returned => exact absurd rfl hpc

theorem printed_step (T R : Nat) (s s1 : State) (t : Thread) (h : Inv T R s)
    (ho : s.pc = MainPc.returned → s.out = some (s.x, T * R))
    (hs : step T R s t = some s1) :
    s1.pc = MainPc.returned → s1.out = some (s1.x, T * R) := by
  obtain ⟨x, wg, i, pc, workers, out⟩ := s
  cases t with
  | main =>
    cases pc with
    | loop =>
      simp only [step] at hs
      split at hs <;> cases hs <;> intro hp <;> cases hp
    | launch =>
      simp only [step, Option.some.injEq] at hs
      subst hs
      intro hp
      cases hp
    | wait =>
      simp only [step] at hs
      split at hs
      · cases hs
        intro hp
        cases hp
      · cases hs
    | print =>
      simp only [step, Option.some.injEq] at hs
      subst hs
      intro _
      rfl
    | returned => simp [step] at hs
  | worker j =>
    simp only [step] at hs
    cases hj : workers[j]? with
    | none => simp [hj] at hs
    | some w =>
      cases w with
      | finished => simp [hj] at hs
      | running r =>
        have hmem : Worker.running r ∈ workers := List.getElem?_mem hj
        have hnr : pc ≠ MainPc.returned := by
          intro hp
          have := h.all_done (Or.inr hp) _ hmem
          cases this
        simp only [hj] at hs
        split at hs <;> cases hs <;> intro hp <;> exact absurd hp hnr

theorem exec_append (T R : Nat) (xs ys : List Thread) :
    ∀ (s s1 s2 : State), exec T R xs s = some s1 → exec T R ys s1 = some s2 →
      exec T R (xs ++ ys) s = some s2 := by
  induction xs with
  | nil =>
    intro s s1 s2 h1 h2
    simp only [exec, Option.some.injEq] at h1
    subst h1
    exact h2
  | cons t ts ih =>
    intro s s1 s2 h1 h2
    simp only [exec, List.cons_append] at h1 ⊢
    cases hst : step T R s t with
    | none => simp [hst] at h1
    | some s3 =>
      simp only [hst] at h1 ⊢
      exact ih s3 s1 s2 h1 h2

theorem printed_exec (T R : Nat) (sched : List Thread) :
    ∀ (s s1 : State), Inv T R s → (s.pc = MainPc.returned → s.out = some (s.x, T * R)) →
      exec T R sched s = some s1 →
      (s1.pc = MainPc.returned → s1.out = some (s1.x, T * R)) := by
  induction sched with
  | nil =>
    intro s s1 _ ho hs
    simp only [exec, Option.some.injEq] at hs
    subst hs
    exact ho
  | cons t ts ih =>
    intro s s1 h ho hs
    simp only [exec] at hs
    cases hst : step T R s t with
    | none => simp [hst] at hs
    | some s2 =>
      simp only [hst] at hs
      exact ih s2 s1 (inv_step T R s s2 t h hst) (printed_step T R s s2 t h ho hst) hs

theorem can_complete (T R : Nat) :
    ∀ (n : Nat) (s : State), Inv T R s →
      (s.pc = MainPc.returned → s.out = some (s.x, T * R)) → stepsLeft T R s ≤ n →
      ∃ sched s1, exec T R sched s = some s1 ∧ s1.pc = MainPc.returned ∧
        s1.out = some (s1.x, T * R) := by
  intro n
  induction n with
  | zero =>
    intro s h ho hn
    by_cases hpc : s.pc = MainPc.returned
    · exact ⟨[], s, rfl, hpc, ho hpc⟩
    · obtain ⟨t, s1, _, hlt⟩ := progress_step T R s h hpc
      omega
  | succ n ih =>
    intro s h ho hn
    by_cases hpc : s.pc = MainPc.returned
    · exact ⟨[], s, rfl, hpc, ho hpc⟩
    · obtain ⟨t, s1, hst, hlt⟩ := progress_step T R s h hpc
      obtain ⟨sched, s2, hex, hp2, ho2⟩ :=
        ih s1 (inv_step T R s s1 t h hst) (printed_step T R s s1 t h ho hst) (by omega)
      refine ⟨t :: sched, s2, ?_, hp2, ho2⟩
      simp only [exec, hst]
      exact hex

/-- Every run can be continued to the end: from any reachable state some
schedule leads `main` to print the map with the expected value and return. -/
theorem run_can_complete (T R : Nat) (sched : List Thread) (s : State)
    (h : exec T R sched init = some s) :
    ∃ sched1 s1, exec T R (sched ++ sched1) init = some s1 ∧ s1.pc = MainPc.returned ∧
      s1.out = some (s1.x, T * R) := by
  have hinv := inv_reachable T R sched s h
  have ho := printed_exec T R sched init s (inv_init T R) (fun hp => by cases hp) h
  obtain ⟨sched1, s1, hex, hp, hout⟩ := can_complete T R _ s hinv ho (Nat.le_refl _)
  exact ⟨sched1, s1, exec_append T R sched sched1 init s s1 h hex, hp, hout⟩

theorem nextWrite_lt (R : Nat) (s : State) (j k : Nat) (h : nextWrite R s j = some k) :
    k < R := by
  unfold nextWrite at h
  split at h
  · split at h
    · cases h; assumption
    · cases h
  · cases h

theorem nextWrite_none_of_finished (R : Nat) (s : State)
    (h : ∀ w ∈ s.workers, w = Worker.finished) (j : Nat) : nextWrite R s j = none := by
  unfold nextWrite
  split
  · rename_i r hr
    have := h _ (List.getElem?_mem hr)
    cases this
  · rfl

/-- Claim C7: with every map write `x[repeat] = repeat` an atomic step, for
every interleaving, once all `THREADS` goroutines have been launched and have
finished, the map holds exactly the keys `0..REPEATS-1`, each mapped to
itself. -/
theorem synchronized_final_map (T R : Nat) (sched : List Thread) (s : State)
    (hT : 0 < T) (hexec : exec T R sched init = some s)
    (hlaunched : s.workers.length = T)
    (hdone : ∀ w ∈ s.workers, w = Worker.finished) :
    s.x.length = R ∧ s.x = idMap R ∧
      (∀ k, mapLookup s.x k = if k < R then some k else none) ∧
      (∀ p ∈ s.x, p.1 < R ∧ p.2 = p.1) := by
  have hinv := inv_reachable T R sched s hexec
  have hne : s.workers ≠ [] := by
    intro h0
    rw [h0] at hlaunched
    simp at hlaunched
    omega
  obtain ⟨w, hw⟩ := List.exists_mem_of_ne_nil _ hne
  have hwf := hdone w hw
  have hp := hinv.prog_le w hw
  rw [hwf] at hp
  simp only [progress] at hp
  have hlen : s.x.length = R := Nat.le_antisymm hinv.len_le hp
  have hx : s.x = idMap R := by
    have := hinv.map_id
    rw [hlen] at this
    exact this
  refine ⟨hlen, hx, ?_, ?_⟩
  · intro k
    rw [hx]
    exact mapLookup_idMap R k
  · intro p hp1
    rw [hx] at hp1
    exact (mem_idMap R p).mp hp1

theorem synchronized_final_map_witness :
    exec 2 2
      [Thread.main, Thread.main, Thread.worker 0, Thread.main, Thread.main, Thread.worker 1,
       Thread.worker 1, Thread.worker 0, Thread.worker 0, Thread.worker 1] init =
      some sampleFinal ∧
    sampleFinal.x.length = 2 ∧ sampleFinal.x = idMap 2 :=
  ⟨by decide,
    (synchronized_final_map 2 2 _ sampleFinal (by decide) (by decide : exec 2 2
      [Thread.main, Thread.main, Thread.worker 0, Thread.main, Thread.main, Thread.worker 1,
       Thread.worker 1, Thread.worker 0, Thread.worker 0, Thread.worker 1] init =
      some sampleFinal) (by decide) (by decide)).1,
    (synchronized_final_map 2 2 _ sampleFinal (by decide) (by decide : exec 2 2
      [Thread.main, Thread.main, Thread.worker 0, Thread.main, Thread.main, Thread.worker 1,
       Thread.worker 1, Thread.worker 0, Thread.worker 0, Thread.worker 1] init =
      some sampleFinal) (by decide) (by decide)).2.1⟩

/-- Claim C8: the expected value the program prints is
`THREADS * REPEATS = 1000000`, while in every state of every run each key
written or about to be written is below `REPEATS`, the map has distinct keys
and at most `REPEATS = 1000` entries, so whenever the map is printed the
expected value differs from its number of entries; and every run can be
continued until the map is printed. -/
theorem expected_value_mismatch (sched : List Thread) (s : State)
    (hexec : exec THREADS REPEATS sched init = some s) :
    THREADS * REPEATS = 1000000 ∧
      (∀ j k, nextWrite REPEATS s j = some k → k < REPEATS) ∧
      (∀ p ∈ s.x, p.1 < REPEATS) ∧
      (s.x.map Prod.fst).Nodup ∧
      s.x.length ≤ 1000 ∧
      (∀ m e, s.out = some (m, e) → e = 1000000 ∧ m.length ≤ 1000 ∧ e ≠ m.length) ∧
      ∃ sched1 s1 m, exec THREADS REPEATS (sched ++ sched1) init = some s1 ∧
        s1.out = some (m, 1000000) ∧ m.length ≤ 1000 := by
  have hinv := inv_reachable THREADS REPEATS sched s hexec
  have hlen : s.x.length ≤ 1000 := hinv.len_le
  refine ⟨by decide, fun j k h => nextWrite_lt REPEATS s j k h, ?_, ?_, hlen, ?_, ?_⟩
  · intro p hp
    rw [hinv.map_id] at hp
    have := ((mem_idMap _ p).mp hp).1
    have h2 : REPEATS = 1000 := rfl
    omega
  · rw [hinv.map_id]
    have : (idMap s.x.length).map Prod.fst = List.range s.x.length := by
      simp [idMap, Function.comp_def]
    rw [this]
    exact List.nodup_range _
  · intro m e hme
    obtain ⟨_, hm, he⟩ := hinv.out_eq m e hme
    have h1 : THREADS * REPEATS = 1000000 := by decide
    subst hm
    refine ⟨by omega, hlen, by omega⟩
  · obtain ⟨sched1, s1, hex, _, hout⟩ := run_can_complete THREADS REPEATS sched s hexec
    have hinv1 := inv_reachable THREADS REPEATS (sched ++ sched1) s1 hex
    have hlen1 : s1.x.length ≤ 1000 := hinv1.len_le
    exact ⟨sched1, s1, s1.x, hex, hout, hlen1⟩

theorem expected_value_mismatch_witness :
    exec THREADS REPEATS
      [Thread.main, Thread.main, Thread.main, Thread.main, Thread.worker 0] init =
      some sampleState ∧
    THREADS * REPEATS = 1000000 ∧ sampleState.x.length ≤ 1000 :=
  ⟨by decide,
    (expected_value_mismatch
      [Thread.main, Thread.main, Thread.main, Thread.main, Thread.worker 0] sampleState
      (by decide)).1,
    (expected_value_mismatch
      [Thread.main, Thread.main, Thread.main, Thread.main, Thread.worker 0] sampleState
      (by decide)).2.2.2.2.1⟩

theorem mapLookup_mapStore (m : GoMap) (k v : Nat) : mapLookup (mapStore m k v) k = some v := by
  induction m with
  | nil => simp [mapStore, mapLookup]
  | cons hd m ih =>
    obtain ⟨k1, v1⟩ := hd
    by_cases h : k1 = k
    · simp [mapStore, mapLookup, h]
    · simp [mapStore, mapLookup, h, ih]

theorem mapLookup_mapStore_ne (m : GoMap) (k v k1 : Nat) (h : k1 ≠ k) :
    mapLookup (mapStore m k v) k1 = mapLookup m k1 := by
  induction m with
  | nil =>
    have h2 : ¬ k = k1 := fun e => h e.symm
    simp [mapStore, mapLookup, h2]
  | cons hd m ih =>
    obtain ⟨k2, v2⟩ := hd
    by_cases h2 : k2 = k
    · subst h2
      have h3 : ¬ k2 = k1 := fun e => h e.symm
      simp [mapStore, mapLookup, h3]
    · by_cases h3 : k2 = k1
      · subst h3
        simp [mapStore, mapLookup, h2]
      · simp [mapStore, mapLookup, h2, h3, ih]

/-- What `nextWrite` announces is what `step` does: the step of the goroutine
stores the key, with itself as value, into the shared map, and touches no
other key. -/
theorem step_of_nextWrite (T R : Nat) (s : State) (j k : Nat)
    (h : nextWrite R s j = some k) :
    ∃ s1, step T R s (Thread.worker j) = some s1 ∧ s1.x = mapStore s.x k k ∧
      mapLookup s1.x k = some k ∧ ∀ k1, k1 ≠ k → mapLookup s1.x k1 = mapLookup s.x k1 := by
  unfold nextWrite at h
  cases hj : s.workers[j]? with
  | none => simp [hj] at h
  | some w =>
    cases w with
    | finished => simp [hj] at h
    | running r =>
      simp only [hj] at h
      by_cases hr : r < R
      · rw [if_pos hr] at h
        simp only [Option.some.injEq] at h
        subst h
        refine ⟨{ s with x := mapStore s.x r r,
                         workers := s.workers.set j (Worker.running (r + 1)) },
          by simp only [step, hj, if_pos hr], rfl, mapLookup_mapStore _ _ _,
          fun k1 hk1 => mapLookup_mapStore_ne _ _ _ _ hk1⟩
      · rw [if_neg hr] at h
        cases h

/-- Claim C9: for `THREADS >= 2` there is a reachable state `s` and two
distinct goroutines `i` and `j` whose next steps both store to the same key
`k` of the shared map (`x = mapStore s.x k k`, after which the map holds `k`,
which it did not hold in `s`), and nothing orders the two stores: from `s`
either goroutine can take its step first and the other one then takes its own,
again a store to key `k`.  No step of a goroutine takes a lock, and the only
blocking operation of the program is the final `wg.Wait()`. -/
theorem unsynchronized_writes_race (T : Nat) (hT : 2 ≤ T) :
    ∃ (sched : List Thread) (s si sj sij sji : State) (i j k : Nat),
      exec T REPEATS sched init = some s ∧ i ≠ j ∧
      nextWrite REPEATS s i = some k ∧ nextWrite REPEATS s j = some k ∧
      mapLookup s.x k = none ∧
      step T REPEATS s (Thread.worker i) = some si ∧
      si.x = mapStore s.x k k ∧ mapLookup si.x k = some k ∧
      step T REPEATS s (Thread.worker j) = some sj ∧
      sj.x = mapStore s.x k k ∧ mapLookup sj.x k = some k ∧
      step T REPEATS si (Thread.worker j) = some sij ∧
      sij.x = mapStore si.x k k ∧ mapLookup sij.x k = some k ∧
      step T REPEATS sj (Thread.worker i) = some sji ∧
      sji.x = mapStore sj.x k k ∧ mapLookup sji.x k = some k ∧
      exec T REPEATS [Thread.worker i, Thread.worker j] s = some sij ∧
      exec T REPEATS [Thread.worker j, Thread.worker i] s = some sji := by
  have h0 : 0 < T := by omega
  have h1 : 1 < T := by omega
  have hR0 : 0 < REPEATS := by decide
  refine ⟨[Thread.main, Thread.main, Thread.main, Thread.main],
    { x := [], wg := 2, i := 2, pc := MainPc.loop,
      workers := [Worker.running 0, Worker.running 0], out := none },
    { x := [(0, 0)], wg := 2, i := 2, pc := MainPc.loop,
      workers := [Worker.running 1, Worker.running 0], out := none },
    { x := [(0, 0)], wg := 2, i := 2, pc := MainPc.loop,
      workers := [Worker.running 0, Worker.running 1], out := none },
    { x := [(0, 0)], wg := 2, i := 2, pc := MainPc.loop,
      workers := [Worker.running 1, Worker.running 1], out := none },
    { x := [(0, 0)], wg := 2, i := 2, pc := MainPc.loop,
      workers := [Worker.running 1, Worker.running 1], out := none },
    0, 1, 0, ?_, by decide, ?_, ?_, ?_, ?_, ?_, ?_, ?_, ?_, ?_, ?_, ?_, ?_, ?_, ?_, ?_, ?_, ?_⟩
  · simp [exec, step, init, h0, h1]
  · simp [nextWrite, hR0]
  · simp [nextWrite, hR0]
  · simp [mapLookup]
  · simp [step, hR0, mapStore]
  · simp [mapStore]
  · simp [mapLookup]
  · simp [step, hR0, mapStore]
  · simp [mapStore]
  · simp [mapLookup]
  · simp [step, hR0, mapStore]
  · simp [mapStore]
  · simp [mapLookup]
  · simp [step, hR0, mapStore]
  · simp [mapStore]
  · simp [mapLookup]
  · simp [exec, step, hR0, mapStore]
  · simp [exec, step, hR0, mapStore]

theorem unsynchronized_writes_race_witness :
    2 ≤ THREADS ∧
    ∃ (sched : List Thread) (s si sj sij sji : State) (i j k : Nat),
      exec THREADS REPEATS sched init = some s ∧ i ≠ j ∧
      nextWrite REPEATS s i = some k ∧ nextWrite REPEATS s j = some k ∧
      mapLookup s.x k = none ∧
      step THREADS REPEATS s (Thread.worker i) = some si ∧
      si.x = mapStore s.x k k ∧ mapLookup si.x k = some k ∧
      step THREADS REPEATS s (Thread.worker j) = some sj ∧
      sj.x = mapStore s.x k k ∧ mapLookup sj.x k = some k ∧
      step THREADS REPEATS si (Thread.worker j) = some sij ∧
      sij.x = mapStore si.x k k ∧ mapLookup sij.x k = some k ∧
      step THREADS REPEATS sj (Thread.worker i) = some sji ∧
      sji.x = mapStore sj.x k k ∧ mapLookup sji.x k = some k ∧
      exec THREADS REPEATS [Thread.worker i, Thread.worker j] s = some sij ∧
      exec THREADS REPEATS [Thread.worker j, Thread.worker i] s = some sji :=
  ⟨by decide, unsynchronized_writes_race THREADS (by decide)⟩

/-- Claim C10, as stated, fails: right after the first `wg.Add(1)` and before
the `go` statement the counter is 1 while no goroutine has been launched, so
the counter is not in every state equal to the number of
launched-but-unfinished goroutines. -/
theorem counter_eq_unfinished_fails :
    ¬ ∀ (sched : List Thread) (s : State),
        exec THREADS REPEATS sched init = some s → s.wg = (unfinished s.workers : Int) := by
  intro h
  have h1 := h [Thread.main] sampleAdded (by decide)
  revert h1
  decide

/-- Claim C10, amended: in every reachable state the wait-group counter is
not negative and equals the number of launched-but-unfinished goroutines, plus
one exactly when `main` is between `wg.Add(1)` and the `go` statement that
follows it; `wg.Wait()` can return only when all `THREADS` goroutines have
been launched and have finished, and once it has returned (at the print and
after it) the counter is zero, all `THREADS` goroutines have finished, and no
goroutine has a write pending; and no run is stuck: it can always be continued
until `main` has printed and returned. -/
theorem completion_barrier (T R : Nat) (sched : List Thread) (s : State)
    (hexec : exec T R sched init = some s) :
    0 ≤ s.wg ∧
      s.wg = (unfinished s.workers : Int) + (if s.pc = MainPc.launch then 1 else 0) ∧
      (s.pc = MainPc.wait → (step T R s Thread.main).isSome = true →
        s.workers.length = T ∧ ∀ w ∈ s.workers, w = Worker.finished) ∧
      (s.pc = MainPc.print ∨ s.pc = MainPc.returned ∨ s.out ≠ none →
        s.wg = 0 ∧ s.workers.length = T ∧ (∀ w ∈ s.workers, w = Worker.finished) ∧
          ∀ j, nextWrite R s j = none) ∧
      ∃ sched1 s1, exec T R (sched ++ sched1) init = some s1 ∧ s1.pc = MainPc.returned ∧
        s1.out = some (s1.x, T * R) := by
  have hinv := inv_reachable T R sched s hexec
  have hwg := hinv.wg_eq
  refine ⟨?_, hwg, ?_, ?_, run_can_complete T R sched s hexec⟩
  · rw [hwg]
    split <;> omega
  · intro hpc hstep
    have hz : s.wg = 0 := by
      simp only [step, hpc] at hstep
      by_contra hne
      rw [if_neg hne] at hstep
      simp at hstep
    have hu : unfinished s.workers = 0 := by
      rw [hpc] at hwg
      simp at hwg
      omega
    refine ⟨?_, all_finished_of_unfinished_zero _ hu⟩
    rw [hinv.launched]
    exact hinv.i_eq (Or.inl hpc)
  · intro hp
    have hp1 : s.pc = MainPc.print ∨ s.pc = MainPc.returned := by
      rcases hp with h | h | h
      · exact Or.inl h
      · exact Or.inr h
      · cases hout : s.out with
        | none => exact absurd hout h
        | some p => exact Or.inr (hinv.out_eq p.1 p.2 (by rw [hout])).1
    have hall := hinv.all_done hp1
    have hlen : s.workers.length = T := by
      rw [hinv.launched]
      exact hinv.i_eq (Or.inr hp1)
    refine ⟨?_, hlen, hall, nextWrite_none_of_finished R s hall⟩
    have hnl : ¬ s.pc = MainPc.launch := by
      rcases hp1 with h | h <;> rw [h] <;> decide
    rw [if_neg hnl] at hwg
    have hu : unfinished s.workers = 0 := by
      clear hwg
      generalize s.workers = ws at hall
      induction ws with
      | nil => rfl
      | cons w ws ih =>
        have hw := hall w (List.mem_cons_self _ _)
        subst hw
        simp only [unfinished]
        exact ih (fun v hv => hall v (List.mem_cons_of_mem _ hv))
    rw [hwg, hu]
    simp

theorem completion_barrier_witness :
    exec 2 1
      [Thread.main, Thread.main, Thread.main, Thread.worker 0, Thread.main, Thread.worker 1,
       Thread.worker 0, Thread.worker 1, Thread.main, Thread.main, Thread.main] init =
      some sampleExit ∧
    0 ≤ sampleExit.wg :=
  ⟨by decide,
    (completion_barrier 2 1
      [Thread.main, Thread.main, Thread.main, Thread.worker 0, Thread.main, Thread.worker 1,
       Thread.worker 0, Thread.worker 1, Thread.main, Thread.main, Thread.main] sampleExit
      (by decide)).1⟩

/-- Claim C1: whenever `strings.Index(reference, candidate)` returns an index
`i` other than `-1` (the empty candidate included), `i + len(candidate)` is at
most `len(reference)`, the slice `reference[i : i+len(candidate)]` is in
bounds and equals the candidate, and the loop of `option.go` consequently
never panics, whatever the reference string and the candidates. -/
theorem index_self_check (reference candidate : GoString) (i : Int)
    (hidx : Index reference candidate = i) (hfound : i ≠ -1) :
    0 ≤ i ∧ i + (candidate.length : Int) ≤ (reference.length : Int) ∧
      slice reference i (i + (candidate.length : Int)) = some candidate ∧
      ∀ subStrings : List GoString, (locate reference subStrings).panicked = none := by
  subst hidx
  rcases Index_spec reference candidate with ⟨h1, _⟩ | ⟨k, h1, h2, _⟩
  · exact absurd h1 hfound
  · rw [h1]
    refine ⟨by omega, ?_, slice_of_occursAt reference candidate k h2, ?_⟩
    · have := h2.1; omega
    · intro subStrings
      simp [locate, locateLoop_eq]

theorem index_self_check_witness :
    Index (lit "hello world") (lit "world") = 6 ∧ (6 : Int) ≠ -1 ∧
      slice (lit "hello world") 6 (6 + ((lit "world").length : Int)) = some (lit "world") :=
  ⟨by decide, by decide,
    (index_self_check (lit "hello world") (lit "world") 6 (by decide) (by decide)).2.2.1⟩

set_option maxRecDepth 20000 in
theorem optionMain_bytes :
    optionMain.stdout =
      [115, 117, 98, 115, 116, 114, 105, 110, 103, 32, 119, 111, 114, 108, 100, 32, 119, 97,
       115, 32, 102, 111, 117, 110, 100, 32, 105, 110, 32, 104, 101, 108, 108, 111, 32, 119,
       111, 114, 108, 100, 32, 97, 116, 32, 105, 110, 100, 101, 120, 32, 54, 10] := by
  decide

set_option maxRecDepth 20000 in
theorem locate_two_digit_index :
    locate (lit "0123456789abcdefXY") [lit "Z", lit "XY", lit "9a"] =
      { stdout := lit ("substring XY was found in 0123456789abcdefXY at index 16\n" ++
          "substring 9a was found in 0123456789abcdefXY at index 9\n"),
        panicked := none } := by
  decide

/-- Claim C6: for every reference string and ordered candidate list the
program prints, in candidate order, exactly one line
`substring S was found in FULL at index I` for each candidate that occurs in
the reference, `I` being the least byte offset of an occurrence written in
decimal, prints nothing for a candidate that does not occur, and does not
panic.  The expected output is built from the text of the line given byte by
byte (`expectedLine`) and from the base-10 digits of the offset
(`decimalText`), not from the formatting of the program.  With the reference
`hello world` and the candidates `world`, `abacus` of the source the output is
the single line for `world` at index 6; an offset of two digits is printed in
full. -/
theorem locate_output_eq_expected :
    (∀ (fullString : GoString) (subStrings : List GoString),
      locate fullString subStrings =
        { stdout := expectedOutput fullString subStrings, panicked := none }) ∧
    (∀ (fullString : GoString) (subStrings : List GoString),
      expectedOutput fullString subStrings =
        (subStrings.map fun s =>
          match leastOccurrence fullString s with
          | some i =>
            [115, 117, 98, 115, 116, 114, 105, 110, 103, 32] ++ s ++
              [32, 119, 97, 115, 32, 102, 111, 117, 110, 100, 32, 105, 110, 32] ++ fullString ++
              [32, 97, 116, 32, 105, 110, 100, 101, 120, 32] ++ decimalText i ++ [10]
          | none => []).flatten) ∧
    (∀ (s substr : GoString) (i : Nat), leastOccurrence s substr = some i ↔
      (OccursAt s substr i ∧ ∀ j, j < i → ¬ OccursAt s substr j)) ∧
    (∀ (s substr : GoString), leastOccurrence s substr = none ↔
      ∀ j, ¬ OccursAt s substr j) ∧
    (∀ i : Nat, unsignedValue (decimalText i) = some i ∧
      (i ≠ 0 → (decimalText i).head? ≠ some 48)) ∧
    optionMain =
      { stdout := lit "substring world was found in hello world at index 6\n",
        panicked := none } ∧
    optionMain.stdout =
      [115, 117, 98, 115, 116, 114, 105, 110, 103, 32, 119, 111, 114, 108, 100, 32, 119, 97,
       115, 32, 102, 111, 117, 110, 100, 32, 105, 110, 32, 104, 101, 108, 108, 111, 32, 119,
       111, 114, 108, 100, 32, 97, 116, 32, 105, 110, 100, 101, 120, 32, 54, 10] ∧
    locate (lit "0123456789abcdefXY") [lit "Z", lit "XY", lit "9a"] =
      { stdout := lit ("substring XY was found in 0123456789abcdefXY at index 16\n" ++
          "substring 9a was found in 0123456789abcdefXY at index 9\n"),
        panicked := none } := by
  refine ⟨?_, ?_, ?_, ?_, ?_, by decide, optionMain_bytes, locate_two_digit_index⟩
  · intro fullString subStrings
    simp [locate, locateLoop_eq]
  · intro fullString subStrings
    rfl
  · intro s substr i
    constructor
    · intro h
      unfold leastOccurrence at h
      split at h
      · rename_i hex
        have hi : Nat.find hex = i := by simpa using h
        rw [Nat.find_eq_iff] at hi
        refine ⟨hi.1.2, fun j hj hc => hi.2 j hj ⟨?_, hc⟩⟩
        have := hi.1.1; omega
      · simp at h
    · rintro ⟨h1, h2⟩
      exact leastOccurrence_eq_some s substr i h1 h2
  · intro s substr
    constructor
    · intro h j hj
      unfold leastOccurrence at h
      split at h
      · simp at h
      · rename_i hex
        exact hex ⟨j, by have := hj.1; omega, hj⟩
    · exact leastOccurrence_eq_none s substr
  · intro i
    rw [← decimal_eq_decimalText]
    refine ⟨unsignedValue_decimal i, ?_⟩
    intro hi
    rw [decimal_eq_decimalText]
    simp only [decimalText, if_neg hi]
    have hne : Nat.digits 10 i ≠ [] := by
      rw [Ne, Nat.digits_eq_nil_iff_eq_zero]
      exact hi
    have hlast := Nat.getLast_digit_ne_zero 10 hi
    intro hhead
    rw [List.head?_map, List.head?_reverse] at hhead
    rw [List.getLast?_eq_getLast _ hne] at hhead
    simp only [Option.map_some', Option.some.injEq] at hhead
    have : (Nat.digits 10 i).getLast hne = 0 := by omega
    exact hlast this

end GoExamples
